import Mathlib

/-!
Verification of the job execution and persistence subsystem of
`github_activity_tracker` (the `run_activity_tracking` orchestrator in
`web/app.py` and the `utils/job_storage.py` store), as a shallow embedding.

Python datetimes are modelled at second precision (the spec's round-trip
property is stated "to the second"); `datetime.isoformat` and
`datetime.fromisoformat` are modelled by `isoformat` / `fromisoformat`
below.  JSON-ish Python values are modelled by `JVal`, with a dedicated
constructor for datetime objects and one for arbitrary non-JSON-serializable
objects.  The storage file system is a record of the primary file's content
and the latest backup file's content.
-/

namespace GAT

/-- A Python `datetime`, at second precision. -/
structure DateTime where
  year : Nat
  month : Nat
  day : Nat
  hour : Nat
  minute : Nat
  second : Nat
deriving DecidableEq, Repr

/-- Field bounds guaranteed by Python's `datetime` constructor
(year ≤ 9999 etc.); what the fixed-width ISO rendering needs. -/
def DateTime.boundsOK (d : DateTime) : Bool :=
  d.year < 10000 && d.month < 100 && d.day < 100 &&
    d.hour < 100 && d.minute < 100 && d.second < 100

/-- Chronological comparison of datetimes (lexicographic on components),
modelling Python's `<` on `datetime`. -/
def DateTime.lt (a b : DateTime) : Bool :=
  if a.year ≠ b.year then a.year < b.year
  else if a.month ≠ b.month then a.month < b.month
  else if a.day ≠ b.day then a.day < b.day
  else if a.hour ≠ b.hour then a.hour < b.hour
  else if a.minute ≠ b.minute then a.minute < b.minute
  else a.second < b.second

/-- The two digits of `n % 100`, most significant first. -/
def pad2 (n : Nat) : List Char :=
  [Nat.digitChar (n / 10 % 10), Nat.digitChar (n % 10)]

/-- The four digits of `n % 10000`, most significant first. -/
def pad4 (n : Nat) : List Char :=
  [Nat.digitChar (n / 1000 % 10), Nat.digitChar (n / 100 % 10),
   Nat.digitChar (n / 10 % 10), Nat.digitChar (n % 10)]

/-- `datetime.isoformat()` at second precision:
`YYYY-MM-DDTHH:MM:SS`. -/
def isoformat (d : DateTime) : String :=
  String.mk (pad4 d.year ++ ['-'] ++ pad2 d.month ++ ['-'] ++ pad2 d.day
    ++ ['T'] ++ pad2 d.hour ++ [':'] ++ pad2 d.minute ++ [':'] ++ pad2 d.second)

/-- Numeric value of an ASCII digit character. -/
def digitVal (c : Char) : Option Nat :=
  let n := c.toNat
  if 48 ≤ n ∧ n ≤ 57 then some (n - 48) else none

/-- Two-digit field. -/
def digit2 (a b : Char) : Option Nat := do
  let x ← digitVal a
  let y ← digitVal b
  pure (10 * x + y)

/-- Four-digit field. -/
def digit4 (a b c d : Char) : Option Nat := do
  let x ← digitVal a
  let y ← digitVal b
  let z ← digitVal c
  let w ← digitVal d
  pure (1000 * x + 100 * y + 10 * z + w)

/-- `datetime.fromisoformat` on the second-precision shape produced by
`isoformat`; any other shape fails (which the loader catches). -/
def fromisoformat (s : String) : Option DateTime :=
  match s.data with
  | [y1, y2, y3, y4, h1, mo1, mo2, h2, d1, d2, t1,
     hh1, hh2, c1, mi1, mi2, c2, s1, s2] =>
    if h1 = '-' ∧ h2 = '-' ∧ t1 = 'T' ∧ c1 = ':' ∧ c2 = ':' then do
      let y ← digit4 y1 y2 y3 y4
      let mo ← digit2 mo1 mo2
      let d ← digit2 d1 d2
      let hh ← digit2 hh1 hh2
      let mi ← digit2 mi1 mi2
      let ss ← digit2 s1 s2
      pure ⟨y, mo, d, hh, mi, ss⟩
    else none
  | _ => none

/-! ## Orchestrator model (`run_activity_tracking` / `process_user`, web/app.py)

All mutations of the job record happen under `status_lock` (or, in the final
phase, on the single orchestrator thread), so an execution is a sequence of
atomic job-record updates.  A run is determined by the per-user fetch
outcome, the order in which workers complete (`order`, a permutation of the
submitted users), the report-generation outcome, and the point at which a
concurrent cancellation request lands.  Functions below return both the
final job record and the list of observable job states, in order.

Not modelled: the persistence calls (`save_job`) issued along the way (they
do not affect the in-memory record), the `ReportGenerator` import-error
path, and the dead `except` branch for `future.result()` (unreachable:
`process_user` catches all exceptions and returns a list). -/

/-- Job status values. -/
inductive JobStatus
  | initializing
  | running
  | generating_report
  | completed
  | failed
  | cancelled
deriving DecidableEq, Repr

/-- One activity record; only its identity matters to the orchestrator. -/
structure Activity where
  user : String
  aid : Nat
deriving DecidableEq, Repr

/-- Outcome of `tracker.track_user_activities` for one user: a list of
activities, or an exception (which `process_user` converts to an error
string).  Import/constructor failures of the tracker take the same
error-appending path and are covered by `err`. -/
inductive WorkerResult
  | ok (acts : List Activity)
  | err (msg : String)

/-- Outcome of `ReportGenerator.generate_report`: a returned path (possibly
`None`), or a raised exception. -/
inductive ReportOutcome
  | ok (path : Option String)
  | raises (msg : String)

/-- The mutable job record (`job_sessions[job_id]`), restricted to the
fields the orchestrator touches.  `ended` models `end_time` being set. -/
structure OJob where
  status : JobStatus
  processed_users : Nat
  total_users : Nat
  activities : List Activity
  errors : List String
  report_path : Option String
  current_user : Option String
  ended : Bool
deriving DecidableEq, Repr

/-- The job record created at submission (web/app.py lines 470-493). -/
def initJob (users : List String) : OJob :=
  { status := .initializing
    processed_users := 0
    total_users := users.length
    activities := []
    errors := []
    report_path := none
    current_user := none
    ended := false }

/-- `process_user` (web/app.py lines 1149-1318): skip if cancelled; set
`current_user`; on success increment `processed_users`; on any failure
append the error and still increment.  Returns the fetched activities, the
final record, and the observed intermediate states. -/
def processUser (fetch : String → WorkerResult) (u : String) (j : OJob) :
    List Activity × OJob × List OJob :=
  if j.status = .cancelled then ([], j, [])
  else
    let j1 := { j with current_user := some u }
    match fetch u with
    | .ok acts =>
      let j2 := { j1 with processed_users := j1.processed_users + 1 }
      (acts, j2, [j1, j2])
    | .err msg =>
      let j2 := { j1 with errors := j1.errors ++ [msg],
                          processed_users := j1.processed_users + 1 }
      ([], j2, [j1, j2])

/-- One worker completion as seen by the orchestrator loop (web/app.py
lines 1389-1395): run the worker, then merge a non-empty result into
`job["activities"]`. -/
def parallelStep (fetch : String → WorkerResult) (j : OJob) (u : String) :
    OJob × List OJob :=
  let r := processUser fetch u j
  if r.1.isEmpty then (r.2.1, r.2.2)
  else
    let j2 := { r.2.1 with activities := r.2.1.activities ++ r.1 }
    (j2, r.2.2 ++ [j2])

/-- The parallel pass over all users, in worker completion order. -/
def parallelPhase (fetch : String → WorkerResult) :
    List String → OJob → OJob × List OJob
  | [], j => (j, [])
  | u :: rest, j =>
    let r1 := parallelStep fetch j u
    let r2 := parallelPhase fetch rest r1.1
    (r2.1, r1.2 ++ r2.2)

/-- The configuration test on the first user (web/app.py lines 1344-1368):
process it once, append its activities, then reset the processed-user
counter to zero. -/
def runWorkerTest (fetch : String → WorkerResult) (u : String) (j : OJob) :
    OJob × List OJob :=
  let r := processUser fetch u j
  let jt2 := if r.1.isEmpty then r.2.1
             else { r.2.1 with activities := r.2.1.activities ++ r.1 }
  let jt3 := { jt2 with processed_users := 0 }
  (jt3, r.2.2 ++ [jt2, jt3])

/-- The cancellation endpoint (web/app.py lines 577-604): flip a
non-terminal status to `cancelled` and set `end_time`; a no-op on terminal
states. -/
def cancelReq (j : OJob) : OJob :=
  if j.status = .initializing ∨ j.status = .running ∨
      j.status = .generating_report then
    { j with status := .cancelled, ended := true }
  else j

/-- Apply a concurrent cancellation request if it lands at boundary `k`. -/
def maybeCancel (cp : Option Nat) (k : Nat) (j : OJob) : OJob :=
  if cp = some k then cancelReq j else j

/-- The job record at the start of `run_activity_tracking` (web/app.py
lines 1122-1129): status set to `running`, activities reset to empty. -/
def startedJob (users : List String) : OJob :=
  { initJob users with status := .running, activities := [] }

/-- The post-worker phase (web/app.py lines 1418-1534 and the `finally`
that sets `end_time`): check for cancellation, generate the report when
activities exist, then finalize.  `cp` is the boundary at which a
concurrent cancellation request lands: `some 0` before the cancellation
check, `some 1` just after it, `some 2` after report generation and
before finalization. -/
def runPost (report : ReportOutcome) (cp : Option Nat) (j0 : OJob) :
    OJob × List OJob :=
  let j := maybeCancel cp 0 j0
  if j.status = .cancelled then
    let jf := { j with ended := true }
    (jf, [j, jf])
  else
    let j1 := maybeCancel cp 1 j
    if j1.activities.isEmpty then
      let j2 := { j1 with
        errors := j1.errors ++ ["No activities found for any users"] }
      let j3 := maybeCancel cp 2 j2
      let j4 := { j3 with processed_users := j3.total_users,
                          status := .completed,
                          current_user := none,
                          ended := true }
      (j4, [j, j1, j2, j3, j4])
    else
      let j2 := { j1 with status := .generating_report }
      match report with
      | .raises msg =>
        let j3 := { j2 with
          errors := j2.errors ++ ["Error generating report: " ++ msg],
          status := .failed,
          ended := true }
        (j3, [j, j1, j2, j3])
      | .ok rp =>
        let j3 :=
          match rp with
          | some p => { j2 with report_path := some p }
          | none => { j2 with
              errors := j2.errors ++
                ["Failed to generate report - report path is empty"] }
        let j4 := maybeCancel cp 2 j3
        let j5 := { j4 with processed_users := j4.total_users,
                            status := .completed,
                            current_user := none,
                            ended := true }
        (j5, [j, j1, j2, j3, j4, j5])

/-- Everything after the processed-counter reset: the parallel pass over
all users followed by the post-worker phase. -/
def afterReset (fetch : String → WorkerResult) (order : List String)
    (report : ReportOutcome) (cp : Option Nat) (j : OJob) :
    OJob × List OJob :=
  let rp := parallelPhase fetch order j
  let rf := runPost report cp rp.1
  (rf.1, rp.2 ++ rf.2)

/-- `run_activity_tracking` (web/app.py lines 1122-1534): mark the job
running with an empty activity list, run the first-user configuration
test, process all users in completion order `order`, then run the
post-worker phase. -/
def runJob (users : List String) (fetch : String → WorkerResult)
    (order : List String) (report : ReportOutcome) (cp : Option Nat) :
    OJob × List OJob :=
  let j0 := startedJob users
  if users.isEmpty then
    let r := runPost report cp j0
    (r.1, j0 :: r.2)
  else
    let rt := runWorkerTest fetch users.headI j0
    let ra := afterReset fetch order report cp rt.1
    (ra.1, j0 :: rt.2 ++ ra.2)

/-- The job state at the processed-counter reset (web/app.py lines
1365-1368), from which the parallel pass starts. -/
def resetPoint (users : List String) (fetch : String → WorkerResult) : OJob :=
  (runWorkerTest fetch users.headI (startedJob users)).1

/-- Fetch function used in concrete runs: each user yields exactly one
activity, distinct per user. -/
def fetchOne : String → WorkerResult := fun u => .ok [⟨u, 0⟩]

/-- Fetch function where user "b" fails with a rate-limit error and every
other user yields one distinct activity. -/
def fetchBFails : String → WorkerResult := fun u =>
  if u = "b" then .err "Error in track_user_activities for b: RateLimited"
  else .ok [⟨u, 0⟩]

/-- Comparison of observed states by processed-user count. -/
def procLE (a b : OJob) : Prop := a.processed_users ≤ b.processed_users

/-- A running job with one collected activity, used as the concrete
instance for witnesses. -/
def sampleJob : OJob :=
  { status := .running
    processed_users := 1
    total_users := 1
    activities := [⟨"a", 0⟩]
    errors := []
    report_path := none
    current_user := none
    ended := false }

/-- A terminal job record, used as the concrete instance for witnesses. -/
def terminalJob : OJob :=
  { status := .completed
    processed_users := 1
    total_users := 1
    activities := []
    errors := []
    report_path := none
    current_user := none
    ended := true }

/-! ## Job storage model (`utils/job_storage.py`)

Python values that may appear in the jobs dictionary are modelled by
`JVal`: JSON scalars and containers, plus `dt` for `datetime` objects and
`nonser` for arbitrary objects the JSON encoder cannot serialize.  The
storage file system is reduced to the primary file `jobs.json` (`primary`,
`none` when the file does not exist) and the most recent timestamped
backup file (`backup`); a file's content is `json v` for text that parses
to the value `v`, `invalid s` for text that fails JSON parsing, or
`unreadable` when reading raises.  The temporary `.temp` file is always
deleted before `_save_jobs_internal` returns, so it does not appear in
the state. -/

/-- A Python value stored in the jobs dictionary. -/
inductive JVal where
  | str (s : String)
  | num (n : Int)
  | bool (b : Bool)
  | null
  | dt (d : DateTime)
  | arr (xs : List JVal)
  | obj (fields : List (String × JVal))
  | nonser
deriving Repr

/-- Python truthiness of a value. -/
def truthy : JVal → Bool
  | .str s => s ≠ ""
  | .num n => n ≠ 0
  | .bool b => b
  | .null => false
  | .dt _ => true
  | .arr xs => ¬ xs.isEmpty
  | .obj m => ¬ m.isEmpty
  | .nonser => true

/-- `isinstance(v, dict)`. -/
def JVal.isObj : JVal → Bool
  | .obj _ => true
  | _ => false

/-- `isinstance(v, list)`. -/
def JVal.isArr : JVal → Bool
  | .arr _ => true
  | _ => false

/-- Dictionary lookup `m.get(k)` on a field list (first match). -/
def getKey (m : List (String × JVal)) (k : String) : Option JVal :=
  (m.find? (fun p => p.1 = k)).map (fun p => p.2)

/-- Dictionary assignment `m[k] = v`: replace an existing entry in place,
or append a new one. -/
def setKey (m : List (String × JVal)) (k : String) (v : JVal) :
    List (String × JVal) :=
  if m.any (fun p => p.1 = k) then
    m.map (fun p => if p.1 = k then (k, v) else p)
  else m ++ [(k, v)]

mutual
/-- `json.dump` with `DateTimeEncoder`: datetimes become their ISO
strings, any non-serializable object raises (`none`). -/
def dumpVal : JVal → Option JVal
  | .str s => some (.str s)
  | .num n => some (.num n)
  | .bool b => some (.bool b)
  | .null => some .null
  | .dt d => some (.str (isoformat d))
  | .arr xs =>
    match dumpList xs with
    | some ys => some (.arr ys)
    | none => none
  | .obj m =>
    match dumpFields m with
    | some fs => some (.obj fs)
    | none => none
  | .nonser => none

def dumpList : List JVal → Option (List JVal)
  | [] => some []
  | x :: xs =>
    match dumpVal x, dumpList xs with
    | some y, some ys => some (y :: ys)
    | _, _ => none

def dumpFields : List (String × JVal) → Option (List (String × JVal))
  | [] => some []
  | p :: xs =>
    match dumpVal p.2, dumpFields xs with
    | some y, some ys => some ((p.1, y) :: ys)
    | _, _ => none
end

/-- A value is plain JSON when the encoder maps it to itself: no datetime
and no non-serializable object anywhere inside. -/
def pureJson (v : JVal) : Prop := dumpVal v = some v

/-- Content of a storage file. -/
inductive FileContent where
  | json (v : JVal)
  | invalid (s : String)
  | unreadable
deriving Repr

/-- The storage file system: the primary `jobs.json` and the most recent
timestamped backup. -/
structure FS where
  primary : Option FileContent
  backup : Option FileContent
deriving Repr

/-- `_ensure_jobs_file`: create an empty jobs file when missing. -/
def ensureJobsFile (fs : FS) : FS :=
  match fs.primary with
  | none => { fs with primary := some (.json (.obj [])) }
  | some _ => fs

/-- The synthesized replacement for invalid (non-dict) job data
(job_storage.py lines 130-140); its timestamps are `datetime.now()`. -/
def placeholderJob (now : DateTime) : JVal :=
  .obj [("status", .str "unknown"), ("start_time", .dt now),
        ("end_time", .dt now), ("processed_users", .num 0),
        ("total_users", .num 0), ("activities", .arr []),
        ("errors", .arr [.str "Invalid job data recovered"]),
        ("report_path", .null)]

/-- Load-time conversion of one timestamp field (job_storage.py lines
105-117): when the field is present and truthy, try
`datetime.fromisoformat`; on success replace the string with the
datetime, on any error (including a non-string value) keep the value. -/
def fixTimeField (k : String) (m : List (String × JVal)) :
    List (String × JVal) :=
  match getKey m k with
  | some v =>
    if truthy v then
      match v with
      | .str s =>
        match fromisoformat s with
        | some d => setKey m k (.dt d)
        | none => m
      | _ => m
    else m
  | none => m

/-- Load-time normalization of `activities` (job_storage.py lines
119-121): a present non-list value is replaced with an empty list. -/
def fixActivities (m : List (String × JVal)) : List (String × JVal) :=
  match getKey m "activities" with
  | some v => if v.isArr then m else setKey m "activities" (.arr [])
  | none => m

/-- Load-time fixups of one job (job_storage.py lines 103-140): convert
timestamp strings, normalize `activities`, and replace non-dict job data
with the synthesized placeholder. -/
def loadFixJob (now : DateTime) (j : JVal) : JVal :=
  match j with
  | .obj m =>
    .obj (fixActivities (fixTimeField "end_time" (fixTimeField "start_time" m)))
  | _ => placeholderJob now

/-- `_load_jobs_internal` (job_storage.py lines 54-146): ensure the file
exists; on a read error return empty without touching the file; on
invalid JSON back up the corrupt file and reset it to an empty object; on
a non-dict top level reset it (without a backup); otherwise apply the
per-job fixups. -/
def loadJobsInternal (now : DateTime) (fs0 : FS) :
    List (String × JVal) × FS :=
  let fs := ensureJobsFile fs0
  match fs.primary with
  | some .unreadable => ([], fs)
  | some (.invalid s) =>
    ([], { fs with backup := some (.invalid s),
                   primary := some (.json (.obj [])) })
  | some (.json v) =>
    match v with
    | .obj m => (m.map (fun p => (p.1, loadFixJob now p.2)), fs)
    | _ => ([], { fs with primary := some (.json (.obj [])) })
  | none => ([], fs)

/-- Save-time conversion of one timestamp field (job_storage.py lines
198-202): an `isinstance(…, datetime)` value becomes its ISO string. -/
def prepTimeField (k : String) (m : List (String × JVal)) :
    List (String × JVal) :=
  match getKey m k with
  | some (.dt d) => setKey m k (.str (isoformat d))
  | _ => m

/-- Save-time normalization of `activities` (job_storage.py lines
204-214): a present non-list becomes an empty list, and only dict
elements of a list are kept. -/
def prepActivities (m : List (String × JVal)) : List (String × JVal) :=
  match getKey m "activities" with
  | some (.arr xs) => setKey m "activities" (.arr (xs.filter JVal.isObj))
  | some _ => setKey m "activities" (.arr [])
  | none => m

/-- Save-time preparation of one job (job_storage.py lines 188-219):
non-dict jobs are skipped; dict jobs get their timestamps and activities
normalized on a copy. -/
def prepJob (j : JVal) : Option JVal :=
  match j with
  | .obj m =>
    some (.obj (prepActivities
      (prepTimeField "end_time" (prepTimeField "start_time" m))))
  | _ => none

/-- The serializable copy of the whole collection. -/
def prepJobs (jobs : List (String × JVal)) : List (String × JVal) :=
  jobs.filterMap (fun p => (prepJob p.2).map (fun j => (p.1, j)))

/-- `_save_jobs_internal` (job_storage.py lines 173-275): build the
serializable copy; refuse when it is empty while the input was not; write
it to the temporary file with `json.dump` (which raises on a
non-serializable value — the temp file is then removed and `false`
returned, the primary untouched); validate the temp file by re-reading
it, then atomically replace the primary. -/
def saveJobsInternal (jobs : List (String × JVal)) (fs0 : FS) : Bool × FS :=
  let fs := ensureJobsFile fs0
  let toSave := prepJobs jobs
  if toSave.isEmpty ∧ ¬ jobs.isEmpty then (false, fs)
  else
    match dumpFields toSave with
    | none => (false, fs)
    | some out => (true, { fs with primary := some (.json (.obj out)) })

/-- `save_job` (job_storage.py lines 291-312): load the collection,
update one entry, save the whole collection. -/
def saveJob (now : DateTime) (jobId : String) (jobData : JVal) (fs : FS) :
    Bool × FS :=
  let r := loadJobsInternal now fs
  saveJobsInternal (setKey r.1 jobId jobData) r.2

/-- `get_job` (job_storage.py lines 159-170): load the collection and
look up one entry. -/
def getJob (now : DateTime) (jobId : String) (fs : FS) : Option JVal :=
  getKey (loadJobsInternal now fs).1 jobId

/-- `job_time` selection in `clean_old_jobs` (job_storage.py lines
421-431): a present truthy `end_time`, else a present truthy
`start_time`, else nothing. -/
def jobTime (m : List (String × JVal)) : Option JVal :=
  match getKey m "end_time" with
  | some v =>
    if truthy v then some v
    else
      match getKey m "start_time" with
      | some w => if truthy w then some w else none
      | none => none
  | none =>
    match getKey m "start_time" with
    | some w => if truthy w then some w else none
    | none => none

/-- Removal decision in `clean_old_jobs` (job_storage.py lines 414-436):
non-dict job data is marked for removal; otherwise only a selected time
that is an actual datetime older than the cutoff qualifies. -/
def shouldRemove (cutoff : DateTime) (j : JVal) : Bool :=
  match j with
  | .obj m =>
    match jobTime m with
    | some (.dt d) => DateTime.lt d cutoff
    | _ => false
  | _ => true

/-- The ids marked for removal. -/
def cleanTargets (cutoff : DateTime) (jobs : List (String × JVal)) :
    List String :=
  (jobs.filter (fun p => shouldRemove cutoff p.2)).map Prod.fst

/-- The removal loop (job_storage.py lines 444-454): pop each marked id
that is still present, counting the removals. -/
def removeIds (jobs : List (String × JVal)) (ids : List String) :
    List (String × JVal) × Nat :=
  ids.foldl
    (fun acc i =>
      if acc.1.any (fun p => p.1 = i) then
        (acc.1.filter (fun p => ¬ p.1 = i), acc.2 + 1)
      else acc)
    (jobs, 0)

/-- `clean_old_jobs` (job_storage.py lines 367-481) on the success path
of its bounded-wait lock acquisition.  `cutoff` stands for
`datetime.now() - timedelta(days=max_age_days)`; the collection is saved
only when at least one job was removed. -/
def cleanOldJobs (now cutoff : DateTime) (fs : FS) : Nat × FS :=
  let r := loadJobsInternal now fs
  let rem := removeIds r.1 (cleanTargets cutoff r.1)
  if 0 < rem.2 then (rem.2, (saveJobsInternal rem.1 r.2).2)
  else (rem.2, r.2)

/-- The sample timestamp used by concrete storage runs. -/
def nowSample : DateTime := ⟨2026, 10, 12, 0, 0, 0⟩

/-- A storage file whose content is valid JSON but not a mapping. -/
def fsNonMap : FS := ⟨some (.json (.arr [])), none⟩

/-! ### Claim C10 -/

/-- The sample cleanup cutoff used by concrete storage runs. -/
def cutoffSample : DateTime := ⟨2026, 9, 12, 0, 0, 0⟩

/-- A stored record whose `start_time` fails ISO parsing but whose
`end_time` is a valid, old datetime string. -/
def fsBadStart : FS :=
  ⟨some (.json (.obj [("j", .obj
    [("start_time", .str "garbage"),
     ("end_time", .str "2020-01-01T00:00:00")])])), none⟩

/-- A value is serializable when `json.dump` accepts it. -/
def serializableJV (v : JVal) : Prop := (dumpVal v).isSome

/-- The domain of the store round-trip: a job dictionary with no
duplicate keys whose fields are plain JSON except that `start_time` and
`end_time` may be (bounded) datetimes, whose time-field strings do not
accidentally parse as ISO datetimes, and whose `activities`, when
present, is a list of dicts. -/
def recOK (j : JVal) : Prop :=
  ∃ m, j = .obj m ∧
    (m.map Prod.fst).Nodup ∧
    (∀ p ∈ m, pureJson p.2 ∨
        ((p.1 = "start_time" ∨ p.1 = "end_time") ∧
          ∃ d, p.2 = .dt d ∧ d.boundsOK = true)) ∧
    (∀ s, getKey m "start_time" = some (.str s) → fromisoformat s = none) ∧
    (∀ s, getKey m "end_time" = some (.str s) → fromisoformat s = none) ∧
    (∀ v, getKey m "activities" = some v →
        ∃ xs, v = .arr xs ∧ ∀ x ∈ xs, x.isObj = true)

/-- A well-formed storage state: the primary file, when it parses, holds
plain JSON (which is what a real file on disk always holds). -/
def FS.wf (fs : FS) : Prop :=
  ∀ v, fs.primary = some (.json v) → pureJson v

/-- The composite save-time field preparation used by `prepJob`. -/
def prepFields (m : List (String × JVal)) : List (String × JVal) :=
  prepActivities (prepTimeField "end_time" (prepTimeField "start_time" m))

/-- The composite load-time field fixups used by `loadFixJob`. -/
def fixFields (m : List (String × JVal)) : List (String × JVal) :=
  fixActivities (fixTimeField "end_time" (fixTimeField "start_time" m))

/-- A realistic job record with datetime fields, used for the round-trip
witness. -/
def recSample : JVal :=
  .obj [("status", .str "completed"),
        ("start_time", .dt ⟨2026, 10, 12, 8, 30, 0⟩),
        ("end_time", .dt ⟨2026, 10, 12, 9, 0, 0⟩),
        ("processed_users", .num 3),
        ("activities", .arr [.obj [("user", .str "a")]])]

/-! ### Stability of the cleanup decision under save-then-load -/

/-- Shape of a time field as it comes out of `_load_jobs_internal`:
either a (bounded) parsed datetime, or a string that does not parse, or
anything else (never an unbounded datetime). -/
def timeOK : Option JVal → Prop
  | some (.dt d) => d.boundsOK = true
  | some (.str s) => fromisoformat s = none
  | _ => True

/-- Two optional time values that drive `clean_old_jobs` to the same
decision: equal presence and truthiness, and equal datetime content. -/
def timeSim : Option JVal → Option JVal → Prop
  | none, none => True
  | some x, some y => truthy x = truthy y ∧
      ((∃ d, x = .dt d ∧ y = .dt d) ∨
        ((∀ d, x ≠ .dt d) ∧ (∀ d, y ≠ .dt d)))
  | _, _ => False

def fs9 : FS :=
  ⟨some (.json (.obj [("a", .obj [("status", .str "completed"),
      ("start_time", .str "2020-01-01T00:00:00")]),
    ("b", .obj [("status", .str "completed"),
      ("start_time", .str "2026-10-01T00:00:00")])])), none⟩

/-- A record shaped like the program's own job records: the worker
results carry a datetime `date` inside each activity
(github_client.py line 294). -/
def recBadDate : JVal :=
  .obj [("status", .str "completed"),
        ("start_time", .dt ⟨2026, 10, 11, 8, 0, 0⟩),
        ("activities", .arr [.obj [("user", .str "a"),
          ("date", .dt ⟨2026, 10, 11, 8, 30, 0⟩)]])]

def fsEmptyC8 : FS := ⟨some (.json (.obj [])), none⟩

/-! ### Theorems -/

theorem digitVal_digitChar (n : Nat) (h : n < 10) :
    digitVal (Nat.digitChar n) = some n := by
  interval_cases n <;> rfl

theorem digit2_pad2 (n : Nat) (h : n < 100) :
    digit2 (Nat.digitChar (n / 10 % 10)) (Nat.digitChar (n % 10)) = some n := by
  rw [digit2, digitVal_digitChar _ (Nat.mod_lt _ (by omega)),
    digitVal_digitChar _ (Nat.mod_lt _ (by omega))]
  simp only [Option.bind_eq_bind, Option.some_bind, Option.some.injEq, pure]
  omega

theorem digit4_pad4 (n : Nat) (h : n < 10000) :
    digit4 (Nat.digitChar (n / 1000 % 10)) (Nat.digitChar (n / 100 % 10))
      (Nat.digitChar (n / 10 % 10)) (Nat.digitChar (n % 10)) = some n := by
  rw [digit4, digitVal_digitChar _ (Nat.mod_lt _ (by omega)),
    digitVal_digitChar _ (Nat.mod_lt _ (by omega)),
    digitVal_digitChar _ (Nat.mod_lt _ (by omega)),
    digitVal_digitChar _ (Nat.mod_lt _ (by omega))]
  simp only [Option.bind_eq_bind, Option.some_bind, Option.some.injEq, pure]
  omega

theorem fromisoformat_isoformat (d : DateTime) (h : d.boundsOK = true) :
    fromisoformat (isoformat d) = some d := by
  obtain ⟨y, mo, da, hh, mi, ss⟩ := d
  simp only [DateTime.boundsOK, Bool.and_eq_true, decide_eq_true_eq] at h
  obtain ⟨⟨⟨⟨⟨h1, h2⟩, h3⟩, h4⟩, h5⟩, h6⟩ := h
  show fromisoformat (String.mk _) = _
  rw [fromisoformat]
  simp only [pad4, pad2, List.cons_append, List.nil_append]
  rw [if_pos (by simp)]
  rw [digit4_pad4 _ h1]
  simp only [Option.bind_eq_bind, Option.some_bind]
  rw [digit2_pad2 _ h2]
  simp only [Option.some_bind]
  rw [digit2_pad2 _ h3]
  simp only [Option.some_bind]
  rw [digit2_pad2 _ h4]
  simp only [Option.some_bind]
  rw [digit2_pad2 _ h5]
  simp only [Option.some_bind]
  rw [digit2_pad2 _ h6]
  rfl

theorem digitVal_lt (c : Char) (v : Nat) (h : digitVal c = some v) : v < 10 := by
  rw [digitVal] at h
  split at h
  · simp only [Option.some.injEq] at h
    omega
  · exact absurd h (by simp)

theorem digit2_lt (a b : Char) (v : Nat) (h : digit2 a b = some v) : v < 100 := by
  rw [digit2] at h
  cases ha : digitVal a with
  | none => rw [ha] at h; exact absurd h (by simp)
  | some x =>
    cases hb : digitVal b with
    | none => rw [ha, hb] at h; exact absurd h (by simp)
    | some y =>
      rw [ha, hb] at h
      simp only [Option.bind_eq_bind, Option.some_bind, pure,
        Option.some.injEq] at h
      have := digitVal_lt a x ha
      have := digitVal_lt b y hb
      omega

theorem digit4_lt (a b c d : Char) (v : Nat) (h : digit4 a b c d = some v) :
    v < 10000 := by
  rw [digit4] at h
  cases ha : digitVal a with
  | none => rw [ha] at h; exact absurd h (by simp)
  | some x =>
    cases hb : digitVal b with
    | none => rw [ha, hb] at h; exact absurd h (by simp)
    | some y =>
      cases hc : digitVal c with
      | none => rw [ha, hb, hc] at h; exact absurd h (by simp)
      | some z =>
        cases hd : digitVal d with
        | none => rw [ha, hb, hc, hd] at h; exact absurd h (by simp)
        | some w =>
          rw [ha, hb, hc, hd] at h
          simp only [Option.bind_eq_bind, Option.some_bind, pure,
            Option.some.injEq] at h
          have := digitVal_lt a x ha
          have := digitVal_lt b y hb
          have := digitVal_lt c z hc
          have := digitVal_lt d w hd
          omega

/-- Every datetime produced by the parser satisfies the field bounds,
so it re-serializes and re-parses to itself. -/
theorem fromisoformat_boundsOK (s : String) (d : DateTime)
    (h : fromisoformat s = some d) : d.boundsOK = true := by
  rw [fromisoformat] at h
  split at h
  · split at h
    · simp only [Option.bind_eq_bind, Option.bind_eq_some, pure,
        Option.some.injEq] at h
      obtain ⟨y, hy, mo, hmo, da, hda, hh, hhh, mi, hmi, ss, hss, hd⟩ := h
      have := digit4_lt _ _ _ _ _ hy
      have := digit2_lt _ _ _ hmo
      have := digit2_lt _ _ _ hda
      have := digit2_lt _ _ _ hhh
      have := digit2_lt _ _ _ hmi
      have := digit2_lt _ _ _ hss
      subst hd
      simp only [DateTime.boundsOK, Bool.and_eq_true, decide_eq_true_eq]
      omega
    · exact absurd h (by simp)
  · exact absurd h (by simp)

theorem maybeCancel_processed (cp : Option Nat) (k : Nat) (j : OJob) :
    (maybeCancel cp k j).processed_users = j.processed_users := by
  rw [maybeCancel]
  split
  · rw [cancelReq]; split <;> rfl
  · rfl

theorem maybeCancel_total (cp : Option Nat) (k : Nat) (j : OJob) :
    (maybeCancel cp k j).total_users = j.total_users := by
  rw [maybeCancel]
  split
  · rw [cancelReq]; split <;> rfl
  · rfl

theorem maybeCancel_activities (cp : Option Nat) (k : Nat) (j : OJob) :
    (maybeCancel cp k j).activities = j.activities := by
  rw [maybeCancel]
  split
  · rw [cancelReq]; split <;> rfl
  · rfl

theorem maybeCancel_none (k : Nat) (j : OJob) : maybeCancel none k j = j := rfl

/-- Facts about one `process_user` call: totals, status and activities are
untouched, the processed counter grows by at most one, and the observed
states are monotone in the processed counter. -/
theorem processUser_spec (fetch : String → WorkerResult) (u : String)
    (j : OJob) :
    ((processUser fetch u j).2.1.total_users = j.total_users) ∧
    ((processUser fetch u j).2.1.status = j.status) ∧
    ((processUser fetch u j).2.1.activities = j.activities) ∧
    (j.processed_users ≤ (processUser fetch u j).2.1.processed_users) ∧
    ((processUser fetch u j).2.1.processed_users ≤ j.processed_users + 1) ∧
    (∀ s ∈ (processUser fetch u j).2.2,
        s.total_users = j.total_users ∧
        j.processed_users ≤ s.processed_users ∧
        s.processed_users ≤ (processUser fetch u j).2.1.processed_users) ∧
    List.Pairwise procLE (processUser fetch u j).2.2 := by
  rw [processUser]
  by_cases hc : j.status = .cancelled
  · simp [hc, procLE]
  · simp only [hc, if_false]
    cases fetch u <;> simp [procLE]

theorem parallelStep_spec (fetch : String → WorkerResult) (j : OJob)
    (u : String) :
    ((parallelStep fetch j u).1.total_users = j.total_users) ∧
    ((parallelStep fetch j u).1.status = j.status) ∧
    (j.processed_users ≤ (parallelStep fetch j u).1.processed_users) ∧
    ((parallelStep fetch j u).1.processed_users ≤ j.processed_users + 1) ∧
    (∀ s ∈ (parallelStep fetch j u).2,
        s.total_users = j.total_users ∧
        j.processed_users ≤ s.processed_users ∧
        s.processed_users ≤ (parallelStep fetch j u).1.processed_users) ∧
    List.Pairwise procLE (parallelStep fetch j u).2 := by
  have hp := processUser_spec fetch u j
  obtain ⟨ht, hs, ha, hlo, hhi, htr, hpw⟩ := hp
  rw [parallelStep]
  split
  · exact ⟨ht, hs, hlo, hhi, htr, hpw⟩
  · refine ⟨ht, hs, hlo, hhi, ?_, ?_⟩
    · intro s hs'
      rcases List.mem_append.1 hs' with h | h
      · exact htr s h
      · simp only [List.mem_singleton] at h
        subst h
        exact ⟨ht, hlo, le_refl _⟩
    · refine List.pairwise_append.2 ⟨hpw, List.pairwise_singleton _ _, ?_⟩
      intro a ha' b hb'
      simp only [List.mem_singleton] at hb'
      subst hb'
      exact ((htr a ha').2.2 : procLE a _)

theorem parallelPhase_spec (fetch : String → WorkerResult)
    (order : List String) (j : OJob) :
    ((parallelPhase fetch order j).1.total_users = j.total_users) ∧
    ((parallelPhase fetch order j).1.status = j.status) ∧
    (j.processed_users ≤ (parallelPhase fetch order j).1.processed_users) ∧
    ((parallelPhase fetch order j).1.processed_users ≤
        j.processed_users + order.length) ∧
    (∀ s ∈ (parallelPhase fetch order j).2,
        s.total_users = j.total_users ∧
        j.processed_users ≤ s.processed_users ∧
        s.processed_users ≤ (parallelPhase fetch order j).1.processed_users) ∧
    List.Pairwise procLE (parallelPhase fetch order j).2 := by
  induction order generalizing j with
  | nil => simp [parallelPhase]
  | cons u rest ih =>
    obtain ⟨st, ss, slo, shi, str, spw⟩ := parallelStep_spec fetch j u
    obtain ⟨it, is_, ilo, ihi, itr, ipw⟩ := ih (parallelStep fetch j u).1
    rw [parallelPhase]
    refine ⟨by rw [it, st], by rw [is_, ss], slo.trans ilo, ?_, ?_, ?_⟩
    · calc (parallelPhase fetch rest (parallelStep fetch j u).1).1.processed_users
          ≤ (parallelStep fetch j u).1.processed_users + rest.length := ihi
        _ ≤ j.processed_users + 1 + rest.length := by omega
        _ = j.processed_users + (u :: rest).length := by
            simp [List.length_cons]; omega
    · intro s hs'
      rcases List.mem_append.1 hs' with h | h
      · obtain ⟨a, b, c⟩ := str s h
        exact ⟨a, b, c.trans ilo⟩
      · obtain ⟨a, b, c⟩ := itr s h
        exact ⟨by rw [a, st], slo.trans b, c⟩
    · refine List.pairwise_append.2 ⟨spw, ipw, ?_⟩
      intro a ha' b hb'
      exact (((str a ha').2.2).trans ((itr b hb').2.1) : procLE a b)

/-- Facts about the post-worker phase: totals are preserved, the processed
counter never decreases, stays bounded by the total whenever it was on
entry, and the observed states are monotone. -/
theorem runPost_spec (report : ReportOutcome) (cp : Option Nat) (j : OJob)
    (hb : j.processed_users ≤ j.total_users) :
    ((runPost report cp j).1.total_users = j.total_users) ∧
    (j.processed_users ≤ (runPost report cp j).1.processed_users) ∧
    ((runPost report cp j).1.processed_users ≤ j.total_users) ∧
    (∀ s ∈ (runPost report cp j).2,
        s.total_users = j.total_users ∧
        j.processed_users ≤ s.processed_users ∧
        s.processed_users ≤ (runPost report cp j).1.processed_users) ∧
    List.Pairwise procLE (runPost report cp j).2 := by
  cases report with
  | raises msg =>
    rw [runPost]
    by_cases h0 : (maybeCancel cp 0 j).status = .cancelled
    · simp [h0, procLE, maybeCancel_processed, maybeCancel_total,
        List.pairwise_cons, hb]
    · by_cases h1 : (maybeCancel cp 1 (maybeCancel cp 0 j)).activities.isEmpty
      · simp [h0, h1, procLE, maybeCancel_processed, maybeCancel_total,
          List.pairwise_cons, hb]
      · simp [h0, h1, procLE, maybeCancel_processed, maybeCancel_total,
          List.pairwise_cons, hb]
  | ok rp =>
    rw [runPost]
    by_cases h0 : (maybeCancel cp 0 j).status = .cancelled
    · simp [h0, procLE, maybeCancel_processed, maybeCancel_total,
        List.pairwise_cons, hb]
    · by_cases h1 : (maybeCancel cp 1 (maybeCancel cp 0 j)).activities.isEmpty
      · simp [h0, h1, procLE, maybeCancel_processed, maybeCancel_total,
          List.pairwise_cons, hb]
      · cases rp <;>
          simp [h0, h1, procLE, maybeCancel_processed, maybeCancel_total,
            List.pairwise_cons, hb]

theorem runWorkerTest_spec (fetch : String → WorkerResult) (u : String)
    (j : OJob) :
    ((runWorkerTest fetch u j).1.total_users = j.total_users) ∧
    ((runWorkerTest fetch u j).1.status = j.status) ∧
    ((runWorkerTest fetch u j).1.processed_users = 0) ∧
    (∀ s ∈ (runWorkerTest fetch u j).2,
        s.total_users = j.total_users ∧
        s.processed_users ≤ j.processed_users + 1) := by
  obtain ⟨ht, hs, _, hlo, hhi, htr, _⟩ := processUser_spec fetch u j
  rw [runWorkerTest]
  refine ⟨?_, ?_, ?_, ?_⟩
  · by_cases he : (processUser fetch u j).1.isEmpty <;>
      simp only [he, if_true, Bool.false_eq_true, if_false] <;> exact ht
  · by_cases he : (processUser fetch u j).1.isEmpty <;>
      simp only [he, if_true, Bool.false_eq_true, if_false] <;> exact hs
  · by_cases he : (processUser fetch u j).1.isEmpty <;>
      simp only [he, if_true, Bool.false_eq_true, if_false]
  · intro s hmem
    by_cases he : (processUser fetch u j).1.isEmpty <;>
      simp only [he, if_true, Bool.false_eq_true, if_false,
        List.mem_append, List.mem_cons, List.not_mem_nil, or_false] at hmem <;>
      rcases hmem with h | h | h
    all_goals try (subst h; refine ⟨ht, ?_⟩; dsimp only; omega)
    all_goals obtain ⟨a, _, c⟩ := htr s h
    all_goals exact ⟨a, by omega⟩

/-- All observable states after the processed-counter reset are bounded by
the total, and (with the reset state prepended) monotone in the processed
counter. -/
theorem afterReset_spec (fetch : String → WorkerResult) (order : List String)
    (report : ReportOutcome) (cp : Option Nat) (j : OJob)
    (hz : j.processed_users = 0) (ht : j.total_users = order.length) :
    (∀ s ∈ (afterReset fetch order report cp j).2,
        s.total_users = j.total_users ∧ s.processed_users ≤ j.total_users) ∧
    List.Pairwise procLE (j :: (afterReset fetch order report cp j).2) := by
  obtain ⟨pt, _, plo, phi, ptr, ppw⟩ := parallelPhase_spec fetch order j
  have hb : (parallelPhase fetch order j).1.processed_users ≤
      (parallelPhase fetch order j).1.total_users := by omega
  obtain ⟨rt, rlo, rhi, rtr, rpw⟩ :=
    runPost_spec report cp (parallelPhase fetch order j).1 hb
  rw [afterReset]
  constructor
  · intro s hmem
    rcases List.mem_append.1 hmem with h | h
    · obtain ⟨a, _, c⟩ := ptr s h
      exact ⟨a, by omega⟩
    · obtain ⟨a, _, c⟩ := rtr s h
      constructor
      · rw [a, pt]
      · have h1 := rhi
        have h2 := pt
        omega
  · refine List.pairwise_cons.2 ⟨?_, ?_⟩
    · intro b hb'
      rcases List.mem_append.1 hb' with h | h
      · exact ((by rw [procLE, hz]; omega : procLE j b))
      · exact ((by rw [procLE, hz]; omega : procLE j b))
    · refine List.pairwise_append.2 ⟨ppw, rpw, ?_⟩
      intro a ha' b hb'
      exact (((ptr a ha').2.2).trans ((rtr b hb').2.1) : procLE a b)

theorem cancelReq_terminal (j : OJob)
    (h : j.status = .completed ∨ j.status = .failed ∨ j.status = .cancelled) :
    cancelReq j = j := by
  rw [cancelReq, if_neg]
  rcases h with h | h | h <;> simp [h]

theorem runPost_cancel_at_zero (report : ReportOutcome) (j : OJob)
    (hs : j.status = .running) :
    (runPost report (some 0) j).1.status = .cancelled := by
  have hc : (maybeCancel (some 0) 0 j).status = .cancelled := by
    simp [maybeCancel, cancelReq, hs]
  rw [runPost]
  simp only [hc, if_true]

/-- C1 evaluated at a failing input: one submitted user whose worker
succeeds with one activity.  The configuration test on the first user
stores its activities and the parallel pass then processes the same user
again, so the final `activities` list holds the activity twice instead of
once. -/
theorem claim_C1_first_user_duplicated :
    ((runJob ["a"] fetchOne ["a"] (.ok (some "r")) none).1.activities =
      [⟨"a", 0⟩, ⟨"a", 0⟩]) ∧
    ((runJob ["a"] fetchOne ["a"] (.ok (some "r")) none).1.activities.length
      = 2) ∧
    (["a"] : List String).length = 1 := by
  exact ⟨rfl, rfl, rfl⟩

/-- C2 is false as stated: in a run with a single succeeding user, the
observed `processed_users` values are 1 after the configuration test and 0
after the counter reset, so a later observation is smaller than an earlier
one. -/
theorem claim_C2_counterexample :
    ¬ (∀ (i k : Nat) (a b : OJob), i ≤ k →
        (runJob ["a"] fetchOne ["a"] (.ok (some "r")) none).2.get? i
          = some a →
        (runJob ["a"] fetchOne ["a"] (.ok (some "r")) none).2.get? k
          = some b →
        a.processed_users ≤ b.processed_users) := by
  intro h
  have h24 := h 2 4 _ _ (by omega) rfl rfl
  exact absurd h24 (by decide)

/-- C2 (amended): in every run, `processed_users` is bounded by
`total_users` at every observation point, and from the counter reset that
ends the first-user configuration test onward it is monotonically
non-decreasing; the single decrease 1 → 0 at that reset is the only
violation of monotonicity. -/
theorem claim_C2_amended (users : List String)
    (fetch : String → WorkerResult) (order : List String)
    (report : ReportOutcome) (hlen : order.length = users.length) :
    (∀ s ∈ (runJob users fetch order report none).2,
        s.processed_users ≤ s.total_users) ∧
    List.Pairwise procLE
      (resetPoint users fetch ::
        (afterReset fetch order report none (resetPoint users fetch)).2) := by
  have hres := runWorkerTest_spec fetch users.headI (startedJob users)
  have hres0 : (resetPoint users fetch).processed_users = 0 := hres.2.2.1
  have hrest : (resetPoint users fetch).total_users = users.length := by
    have := hres.1
    simpa [startedJob, initJob] using this
  have hAR := afterReset_spec fetch order report none (resetPoint users fetch)
    hres0 (by rw [hrest, hlen])
  refine ⟨?_, hAR.2⟩
  intro s hs
  rw [runJob] at hs
  by_cases hu : users.isEmpty
  · simp only [hu, if_true, List.mem_cons] at hs
    have hb0 : (startedJob users).processed_users ≤
        (startedJob users).total_users := by
      simp [startedJob, initJob]
    obtain ⟨rt, rlo, rhi, rtr, _⟩ := runPost_spec report none _ hb0
    rcases hs with h | h
    · subst h; simp [startedJob, initJob]
    · obtain ⟨a, _, c⟩ := rtr s h
      omega
  · simp only [hu, Bool.false_eq_true, if_false, List.mem_cons,
      List.mem_append, or_assoc] at hs
    have hlen1 : 1 ≤ users.length := by
      cases users with
      | nil => simp at hu
      | cons a l => simp [List.length_cons]
    rcases hs with h | h | h
    · subst h; simp [startedJob, initJob]
    · obtain ⟨a, c⟩ := hres.2.2.2 s h
      simp only [startedJob, initJob] at a
      have hsp : (startedJob users).processed_users = 0 := rfl
      omega
    · obtain ⟨a, c⟩ := hAR.1 s h
      rw [a, hrest]
      omega

/-- Witness for the amended C2 at a concrete run. -/
theorem claim_C2_amended_witness :
    (∀ s ∈ (runJob ["a"] fetchOne ["a"] (.ok (some "r")) none).2,
        s.processed_users ≤ s.total_users) ∧
    List.Pairwise procLE
      (resetPoint ["a"] fetchOne ::
        (afterReset fetchOne ["a"] (.ok (some "r")) none
          (resetPoint ["a"] fetchOne)).2) :=
  claim_C2_amended ["a"] fetchOne ["a"] (.ok (some "r")) rfl

/-- C3 is false as stated: when the report renderer raises, the job is
marked `failed`, not `completed` (only the "renderer returned an empty
path" branch keeps the job completing); the collected activities are
retained either way. -/
theorem claim_C3_counterexample :
    ((runJob ["a"] fetchOne ["a"] (.raises "boom") none).1.status
      = .failed) ∧
    ((runJob ["a"] fetchOne ["a"] (.raises "boom") none).1.status
      ≠ .completed) ∧
    ((runJob ["a"] fetchOne ["a"] (.raises "boom") none).1.activities
      ≠ []) := by
  refine ⟨rfl, by decide, by decide⟩

/-- C3 (amended): for a running job with at least one collected activity,
a renderer returning a null/empty artifact leads to an appended error and
final status `completed`; a renderer that raises leads to an appended
error and final status `failed`; in both cases the collected activities
are unchanged. -/
theorem claim_C3_amended (j : OJob) (m : String)
    (hs : j.status = .running) (ha : j.activities ≠ []) :
    ((runPost (.ok none) none j).1.status = .completed ∧
     (runPost (.ok none) none j).1.activities = j.activities ∧
     (runPost (.ok none) none j).1.errors =
       j.errors ++ ["Failed to generate report - report path is empty"]) ∧
    ((runPost (.raises m) none j).1.status = .failed ∧
     (runPost (.raises m) none j).1.activities = j.activities ∧
     (runPost (.raises m) none j).1.errors =
       j.errors ++ ["Error generating report: " ++ m]) := by
  have hnc : ¬ j.status = .cancelled := by simp [hs]
  have hne : j.activities.isEmpty = false := by
    simpa [List.isEmpty_iff] using ha
  constructor <;>
    · rw [runPost]
      simp [maybeCancel_none, hnc, hne]

/-- Witness for the amended C3 at a concrete job. -/
theorem claim_C3_amended_witness :
    ((runPost (.ok none) none sampleJob).1.status = .completed ∧
     (runPost (.ok none) none sampleJob).1.activities =
       sampleJob.activities ∧
     (runPost (.ok none) none sampleJob).1.errors = sampleJob.errors ++
       ["Failed to generate report - report path is empty"]) ∧
    ((runPost (.raises "boom") none sampleJob).1.status = .failed ∧
     (runPost (.raises "boom") none sampleJob).1.activities =
       sampleJob.activities ∧
     (runPost (.raises "boom") none sampleJob).1.errors =
       sampleJob.errors ++ ["Error generating report: " ++ "boom"]) :=
  claim_C3_amended sampleJob "boom" rfl (by decide)

/-- C4 is false as stated: a cancellation request that lands after the
post-worker cancellation check (here: after report generation, at
boundary 2) moves the job to the terminal state `cancelled`, and the
finalization step then overwrites it with `completed`. -/
theorem claim_C4_counterexample :
    (((runJob ["a"] fetchOne ["a"] (.ok (some "r")) (some 2)).2.get? 12).map
        OJob.status = some .cancelled) ∧
    (runJob ["a"] fetchOne ["a"] (.ok (some "r")) (some 2)).1.status
      = .completed := by
  exact ⟨rfl, rfl⟩

/-- C4 (amended): the cancellation endpoint itself never changes a
terminal status, and a cancellation that lands before the post-worker
cancellation check is preserved — the run finishes `cancelled`.  (A
cancellation landing between that check and finalization is overwritten
with `completed`, as the counterexample shows.) -/
theorem claim_C4_amended :
    (∀ j : OJob, (j.status = .completed ∨ j.status = .failed ∨
        j.status = .cancelled) → cancelReq j = j) ∧
    (∀ (users : List String) (fetch : String → WorkerResult)
        (order : List String) (report : ReportOutcome),
      (runJob users fetch order report (some 0)).1.status = .cancelled) := by
  refine ⟨cancelReq_terminal, ?_⟩
  intro users fetch order report
  rw [runJob]
  by_cases hu : users.isEmpty
  · simp only [hu, if_true]
    exact runPost_cancel_at_zero report _ rfl
  · simp only [hu, Bool.false_eq_true, if_false]
    rw [afterReset]
    refine runPost_cancel_at_zero report _ ?_
    rw [(parallelPhase_spec fetch order _).2.1,
      (runWorkerTest_spec fetch users.headI _).2.1]
    rfl

/-- Witness for the amended C4 at concrete inputs. -/
theorem claim_C4_amended_witness :
    cancelReq terminalJob = terminalJob ∧
    (runJob ["a"] fetchOne ["a"] (.ok (some "r")) (some 0)).1.status
      = .cancelled :=
  ⟨claim_C4_amended.1 terminalJob (Or.inl rfl),
   claim_C4_amended.2 ["a"] fetchOne ["a"] (.ok (some "r"))⟩

/-- C5 evaluated at a failing input: two users, "b" fails, "a" succeeds
with one activity.  The job completes, the error is recorded and
`processed_users` reaches `total_users`, but the `activities` list holds
user "a"'s activity twice (first-user duplication), not the claimed
exactly N-1 = 1 successful activities. -/
theorem claim_C5_one_failure_eval :
    ((runJob ["a", "b"] fetchBFails ["a", "b"]
        (.ok (some "r")) none).1.status = .completed) ∧
    ((runJob ["a", "b"] fetchBFails ["a", "b"]
        (.ok (some "r")) none).1.processed_users =
      (runJob ["a", "b"] fetchBFails ["a", "b"]
        (.ok (some "r")) none).1.total_users) ∧
    (1 ≤ (runJob ["a", "b"] fetchBFails ["a", "b"]
        (.ok (some "r")) none).1.errors.length) ∧
    ((runJob ["a", "b"] fetchBFails ["a", "b"]
        (.ok (some "r")) none).1.activities = [⟨"a", 0⟩, ⟨"a", 0⟩]) := by
  refine ⟨rfl, rfl, by decide, rfl⟩

/-! ### Association-list lemmas -/

theorem getKey_nil (k : String) : getKey [] k = none := rfl

theorem getKey_cons (p : String × JVal) (t : List (String × JVal))
    (k : String) :
    getKey (p :: t) k = if p.1 = k then some p.2 else getKey t k := by
  by_cases h : p.1 = k
  · simp [getKey, List.find?_cons_of_pos, h]
  · simp [getKey, List.find?_cons_of_neg, h]

theorem getKey_append (m m' : List (String × JVal)) (k : String) :
    getKey (m ++ m') k =
      match getKey m k with
      | some v => some v
      | none => getKey m' k := by
  induction m with
  | nil => simp [getKey_nil]
  | cons p t ih =>
    rw [List.cons_append, getKey_cons, getKey_cons]
    by_cases h : p.1 = k <;> simp [h, ih]

theorem any_of_getKey_some (m : List (String × JVal)) (k : String)
    (v : JVal) (h : getKey m k = some v) :
    m.any (fun p => p.1 = k) = true := by
  induction m with
  | nil => simp [getKey_nil] at h
  | cons p t ih =>
    rw [getKey_cons] at h
    by_cases hp : p.1 = k
    · simp [hp]
    · rw [if_neg hp] at h
      simp [ih h]

theorem getKey_none_of_not_any (m : List (String × JVal)) (k : String)
    (h : m.any (fun p => p.1 = k) = false) : getKey m k = none := by
  induction m with
  | nil => rfl
  | cons p t ih =>
    simp only [List.any_cons, Bool.or_eq_false_iff] at h
    rw [getKey_cons, if_neg (by simpa using h.1)]
    exact ih h.2

theorem getKey_map_setKey (t : List (String × JVal)) (k : String) (v : JVal)
    (h : t.any (fun p => p.1 = k) = true) :
    getKey (t.map (fun p => if p.1 = k then (k, v) else p)) k = some v := by
  induction t with
  | nil => simp at h
  | cons p t ih =>
    rw [List.map_cons, getKey_cons]
    by_cases hp : p.1 = k
    · simp [hp]
    · rw [if_neg hp, if_neg hp]
      refine ih ?_
      simp only [List.any_cons] at h
      rcases (by simpa using h : p.1 = k ∨ t.any (fun p => p.1 = k) = true)
        with h' | h'
      · exact absurd h' hp
      · exact h'

theorem getKey_setKey_self (m : List (String × JVal)) (k : String)
    (v : JVal) : getKey (setKey m k v) k = some v := by
  rw [setKey]
  split
  · rename_i hany
    exact getKey_map_setKey m k v hany
  · rename_i hany
    rw [getKey_append,
      getKey_none_of_not_any m k
        (by simp only [Bool.not_eq_true] at hany; exact hany)]
    rw [getKey_cons, if_pos rfl]

theorem getKey_map_setKey_ne (t : List (String × JVal)) (k k' : String)
    (v : JVal) (h : k' ≠ k) :
    getKey (t.map (fun p => if p.1 = k then (k, v) else p)) k' =
      getKey t k' := by
  induction t with
  | nil => rfl
  | cons p t ih =>
    rw [List.map_cons, getKey_cons, getKey_cons]
    by_cases hp : p.1 = k
    · rw [if_pos hp, if_neg (fun hh => h (hh.symm : k' = k)),
        if_neg (by rw [hp]; exact fun hh => h hh.symm)]
      exact ih
    · rw [if_neg hp]
      by_cases hp' : p.1 = k'
      · rw [if_pos hp', if_pos hp']
      · rw [if_neg hp', if_neg hp']
        exact ih

theorem getKey_setKey_ne (m : List (String × JVal)) (k k' : String)
    (v : JVal) (h : k' ≠ k) : getKey (setKey m k v) k' = getKey m k' := by
  rw [setKey]
  split
  · exact getKey_map_setKey_ne m k k' v h
  · rw [getKey_append]
    cases hg : getKey m k' with
    | some w => rfl
    | none =>
      rw [getKey_cons, if_neg (fun hh => h (hh.symm : k' = k))]
      rfl

theorem keys_setKey_of_any (m : List (String × JVal)) (k : String)
    (v : JVal) (h : m.any (fun p => p.1 = k) = true) :
    (setKey m k v).map Prod.fst = m.map Prod.fst := by
  rw [setKey, if_pos h, List.map_map]
  refine List.map_congr_left ?_
  intro p _
  by_cases hp : p.1 = k
  · simp [hp]
  · simp [hp]

theorem getKey_none_of_not_mem (m : List (String × JVal)) (k : String)
    (h : k ∉ m.map Prod.fst) : getKey m k = none := by
  induction m with
  | nil => rfl
  | cons p t ih =>
    simp only [List.map_cons, List.mem_cons] at h
    push_neg at h
    rw [getKey_cons, if_neg (fun hh => h.1 hh.symm)]
    exact ih h.2

/-- Two field lists with the same keys in the same order, no duplicate
keys, and the same lookup at every key are equal. -/
theorem assoc_ext (m m' : List (String × JVal))
    (hk : m.map Prod.fst = m'.map Prod.fst)
    (hnd : (m.map Prod.fst).Nodup)
    (hg : ∀ k, getKey m k = getKey m' k) : m = m' := by
  induction m generalizing m' with
  | nil =>
    cases m' with
    | nil => rfl
    | cons q t' => simp at hk
  | cons p t ih =>
    cases m' with
    | nil => simp at hk
    | cons q t' =>
      simp only [List.map_cons, List.cons.injEq] at hk
      obtain ⟨hk1, hk2⟩ := hk
      simp only [List.map_cons, List.nodup_cons] at hnd
      obtain ⟨hnm, hnd'⟩ := hnd
      have hv : p.2 = q.2 := by
        have := hg p.1
        rw [getKey_cons, getKey_cons, if_pos rfl, if_pos hk1.symm] at this
        exact Option.some.inj this
      have ht : t = t' := by
        refine ih t' hk2 hnd' ?_
        intro k
        by_cases hkp : k = p.1
        · rw [getKey_none_of_not_mem t k (by rw [hkp]; exact hnm),
            getKey_none_of_not_mem t' k (by rw [hkp, ← hk2]; exact hnm)]
        · have := hg k
          rw [getKey_cons, getKey_cons, if_neg (fun hh => hkp hh.symm),
            if_neg (by rw [← hk1]; exact fun hh => hkp hh.symm)] at this
          exact this
      calc p :: t = (p.1, p.2) :: t := rfl
        _ = (q.1, q.2) :: t' := by rw [hk1, hv, ht]
        _ = q :: t' := rfl

theorem getKey_mapVal (f : JVal → JVal) (m : List (String × JVal))
    (k : String) :
    getKey (m.map (fun p => (p.1, f p.2))) k = (getKey m k).map f := by
  induction m with
  | nil => rfl
  | cons p t ih =>
    rw [List.map_cons, getKey_cons, getKey_cons]
    by_cases hp : p.1 = k
    · simp [hp]
    · simp only [hp, if_false, ih]

/-! ### Serialization lemmas -/

theorem isoformat_ne_empty (d : DateTime) : isoformat d ≠ "" := by
  intro h
  have : (isoformat d).data = ("" : String).data := by rw [h]
  rw [isoformat] at this
  simp [pad4, pad2] at this

theorem dumpFields_keys (m out : List (String × JVal))
    (h : dumpFields m = some out) : out.map Prod.fst = m.map Prod.fst := by
  induction m generalizing out with
  | nil =>
    rw [dumpFields] at h
    injection h with h
    subst h
    rfl
  | cons p t ih =>
    rw [dumpFields] at h
    cases hd : dumpVal p.2 with
    | none => rw [hd] at h; exact absurd h (by simp)
    | some y =>
      cases ht : dumpFields t with
      | none => rw [hd, ht] at h; exact absurd h (by simp)
      | some ys =>
        rw [hd, ht] at h
        injection h with h
        subst h
        simp [ih ys ht]

theorem dumpFields_getKey (m out : List (String × JVal)) (k : String)
    (h : dumpFields m = some out) :
    getKey out k =
      match getKey m k with
      | none => none
      | some v => dumpVal v := by
  induction m generalizing out with
  | nil =>
    rw [dumpFields] at h
    injection h with h
    subst h
    rfl
  | cons p t ih =>
    rw [dumpFields] at h
    cases hd : dumpVal p.2 with
    | none => rw [hd] at h; exact absurd h (by simp)
    | some y =>
      cases ht : dumpFields t with
      | none => rw [hd, ht] at h; exact absurd h (by simp)
      | some ys =>
        rw [hd, ht] at h
        injection h with h
        subst h
        rw [getKey_cons, getKey_cons]
        by_cases hp : p.1 = k
        · rw [if_pos hp, if_pos hp]
          exact hd.symm
        · rw [if_neg hp, if_neg hp, ih ys ht]

theorem dumpFields_mem (m out : List (String × JVal)) (q : String × JVal)
    (h : dumpFields m = some out) (hq : q ∈ out) :
    ∃ p ∈ m, q.1 = p.1 ∧ dumpVal p.2 = some q.2 := by
  induction m generalizing out with
  | nil =>
    rw [dumpFields] at h
    injection h with h
    subst h
    simp at hq
  | cons p t ih =>
    rw [dumpFields] at h
    cases hd : dumpVal p.2 with
    | none => rw [hd] at h; exact absurd h (by simp)
    | some y =>
      cases ht : dumpFields t with
      | none => rw [hd, ht] at h; exact absurd h (by simp)
      | some ys =>
        rw [hd, ht] at h
        injection h with h
        subst h
        rcases List.mem_cons.1 hq with hh | hh
        · exact ⟨p, List.mem_cons_self p t, by rw [hh], by rw [hh, hd]⟩
        · obtain ⟨p', hp', h1, h2⟩ := ih ys ht hh
          exact ⟨p', List.mem_cons_of_mem p hp', h1, h2⟩

theorem dumpFields_of_pointwise (m : List (String × JVal))
    (h : ∀ p ∈ m, dumpVal p.2 = some p.2) : dumpFields m = some m := by
  induction m with
  | nil => rfl
  | cons p t ih =>
    rw [dumpFields, h p (List.mem_cons_self p t),
      ih (fun q hq => h q (List.mem_cons_of_mem p hq))]

theorem dumpFields_pointwise_self (m : List (String × JVal))
    (h : dumpFields m = some m) : ∀ p ∈ m, dumpVal p.2 = some p.2 := by
  induction m with
  | nil => intro p hp; simp at hp
  | cons p t ih =>
    rw [dumpFields] at h
    cases hd : dumpVal p.2 with
    | none => rw [hd] at h; exact absurd h (by simp)
    | some y =>
      cases ht : dumpFields t with
      | none => rw [hd, ht] at h; exact absurd h (by simp)
      | some ys =>
        rw [hd, ht] at h
        injection h with h
        injection h with h1 h2
        have hy : y = p.2 := congrArg Prod.snd h1
        subst h2
        intro q hq
        rcases List.mem_cons.1 hq with hh | hh
        · rw [hh, hd, hy]
        · exact ih ht q hh

theorem dumpFields_exists_of_pointwise (m : List (String × JVal))
    (h : ∀ p ∈ m, (dumpVal p.2).isSome) : ∃ out, dumpFields m = some out := by
  induction m with
  | nil => exact ⟨[], rfl⟩
  | cons p t ih =>
    obtain ⟨y, hy⟩ := Option.isSome_iff_exists.1 (h p (List.mem_cons_self p t))
    obtain ⟨ys, hys⟩ := ih (fun q hq => h q (List.mem_cons_of_mem p hq))
    exact ⟨(p.1, y) :: ys, by rw [dumpFields, hy, hys]⟩

theorem dumpList_length (xs ys : List JVal) (h : dumpList xs = some ys) :
    ys.length = xs.length := by
  induction xs generalizing ys with
  | nil =>
    rw [dumpList] at h
    injection h with h
    subst h
    rfl
  | cons x t ih =>
    rw [dumpList] at h
    cases hd : dumpVal x with
    | none => rw [hd] at h; exact absurd h (by simp)
    | some y =>
      cases ht : dumpList t with
      | none => rw [hd, ht] at h; exact absurd h (by simp)
      | some ys' =>
        rw [hd, ht] at h
        injection h with h
        subst h
        simp [ih ys' ht]

theorem dumpFields_length (m out : List (String × JVal))
    (h : dumpFields m = some out) : out.length = m.length := by
  have := dumpFields_keys m out h
  have := congrArg List.length this
  simpa using this

theorem dump_truthy (v w : JVal) (h : dumpVal v = some w) :
    truthy w = truthy v := by
  cases v with
  | str s => rw [dumpVal] at h; injection h with h; subst h; rfl
  | num n => rw [dumpVal] at h; injection h with h; subst h; rfl
  | bool b => rw [dumpVal] at h; injection h with h; subst h; rfl
  | null => rw [dumpVal] at h; injection h with h; subst h; rfl
  | dt d =>
    rw [dumpVal] at h
    injection h with h
    subst h
    simp [truthy, isoformat_ne_empty d]
  | arr xs =>
    rw [dumpVal] at h
    cases hl : dumpList xs with
    | none => rw [hl] at h; exact absurd h (by simp)
    | some ys =>
      rw [hl] at h
      injection h with h
      subst h
      have hlen := dumpList_length xs ys hl
      have he : ys.isEmpty = xs.isEmpty := by
        cases xs <;> cases ys <;> simp_all
      simp [truthy, he]
  | obj m =>
    rw [dumpVal] at h
    cases hf : dumpFields m with
    | none => rw [hf] at h; exact absurd h (by simp)
    | some fs =>
      rw [hf] at h
      injection h with h
      subst h
      have hlen := dumpFields_length m fs hf
      have he : fs.isEmpty = m.isEmpty := by
        cases m <;> cases fs <;> simp_all
      simp [truthy, he]
  | nonser => rw [dumpVal] at h; exact absurd h (by simp)

theorem dump_not_dt (v w : JVal) (h : dumpVal v = some w) (e : DateTime) :
    w ≠ .dt e := by
  cases v with
  | str s => rw [dumpVal] at h; injection h with h; subst h; simp
  | num n => rw [dumpVal] at h; injection h with h; subst h; simp
  | bool b => rw [dumpVal] at h; injection h with h; subst h; simp
  | null => rw [dumpVal] at h; injection h with h; subst h; simp
  | dt d => rw [dumpVal] at h; injection h with h; subst h; simp
  | arr xs =>
    rw [dumpVal] at h
    cases hl : dumpList xs with
    | none => rw [hl] at h; exact absurd h (by simp)
    | some ys => rw [hl] at h; injection h with h; subst h; simp
  | obj m =>
    rw [dumpVal] at h
    cases hf : dumpFields m with
    | none => rw [hf] at h; exact absurd h (by simp)
    | some fs => rw [hf] at h; injection h with h; subst h; simp
  | nonser => rw [dumpVal] at h; exact absurd h (by simp)

theorem dump_not_str (v w : JVal) (h : dumpVal v = some w)
    (hvs : ∀ s, v ≠ .str s) (hvd : ∀ d, v ≠ .dt d) (t : String) :
    w ≠ .str t := by
  cases v with
  | str s => exact absurd rfl (hvs s)
  | num n => rw [dumpVal] at h; injection h with h; subst h; simp
  | bool b => rw [dumpVal] at h; injection h with h; subst h; simp
  | null => rw [dumpVal] at h; injection h with h; subst h; simp
  | dt d => exact absurd rfl (hvd d)
  | arr xs =>
    rw [dumpVal] at h
    cases hl : dumpList xs with
    | none => rw [hl] at h; exact absurd h (by simp)
    | some ys => rw [hl] at h; injection h with h; subst h; simp
  | obj m =>
    rw [dumpVal] at h
    cases hf : dumpFields m with
    | none => rw [hf] at h; exact absurd h (by simp)
    | some fs => rw [hf] at h; injection h with h; subst h; simp
  | nonser => rw [dumpVal] at h; exact absurd h (by simp)

theorem pureJson_fields (m : List (String × JVal))
    (h : pureJson (.obj m)) : ∀ p ∈ m, pureJson p.2 := by
  rw [pureJson, dumpVal] at h
  cases hf : dumpFields m with
  | none => rw [hf] at h; exact absurd h (by simp)
  | some fs =>
    rw [hf] at h
    injection h with h
    injection h with h
    rw [h] at hf
    exact dumpFields_pointwise_self m hf

theorem getKey_mem (m : List (String × JVal)) (k : String) (v : JVal)
    (h : getKey m k = some v) : ∃ p ∈ m, p.1 = k ∧ p.2 = v := by
  rw [getKey] at h
  cases hf : m.find? (fun p => p.1 = k) with
  | none => rw [hf] at h; exact absurd h (by simp)
  | some p =>
    rw [hf] at h
    injection h with h
    refine ⟨p, List.mem_of_find?_eq_some hf, ?_, h⟩
    have := List.find?_some hf
    simpa using this

theorem pureJson_getKey (m : List (String × JVal)) (k : String) (v : JVal)
    (h : pureJson (.obj m)) (hg : getKey m k = some v) : pureJson v := by
  obtain ⟨p, hp, _, hv⟩ := getKey_mem m k v hg
  rw [← hv]
  exact pureJson_fields m h p hp

theorem pureJson_not_dt (d : DateTime) : ¬ pureJson (.dt d) := by
  rw [pureJson, dumpVal]
  simp

theorem pureJson_isSome (v : JVal) (h : pureJson v) :
    (dumpVal v).isSome := by
  rw [h]
  rfl

theorem mem_setKey (m : List (String × JVal)) (k : String) (v : JVal)
    (q : String × JVal) (hq : q ∈ setKey m k v) : q ∈ m ∨ q = (k, v) := by
  rw [setKey] at hq
  split at hq
  · rcases List.mem_map.1 hq with ⟨p, hp, he⟩
    by_cases hpk : p.1 = k
    · rw [if_pos hpk] at he
      exact Or.inr he.symm
    · rw [if_neg hpk] at he
      exact Or.inl (he ▸ hp)
  · rcases List.mem_append.1 hq with h | h
    · exact Or.inl h
    · simp only [List.mem_singleton] at h
      exact Or.inr h

theorem prepJobs_mem (S : List (String × JVal)) (q : String × JVal)
    (hq : q ∈ prepJobs S) :
    ∃ p ∈ S, q.1 = p.1 ∧ prepJob p.2 = some q.2 := by
  rw [prepJobs] at hq
  rcases List.mem_filterMap.1 hq with ⟨p, hp, he⟩
  cases hj : prepJob p.2 with
  | none => rw [hj] at he; exact absurd he (by simp)
  | some j =>
    rw [hj] at he
    injection he with he
    exact ⟨p, hp, by rw [← he], by rw [hj, ← he]⟩

theorem getKey_prepJobs_none (m : List (String × JVal)) (k : String)
    (h : ∀ p ∈ m, p.1 = k → prepJob p.2 = none) :
    getKey (prepJobs m) k = none := by
  induction m with
  | nil => rfl
  | cons p t ih =>
    have ht := ih (fun q hq hk => h q (List.mem_cons_of_mem p hq) hk)
    rw [prepJobs] at ht
    cases hj : prepJob p.2 with
    | none =>
      simp only [prepJobs, List.filterMap_cons, hj, Option.map_none']
      exact ht
    | some j =>
      have hp : ¬ p.1 = k := by
        intro hk
        have := h p (List.mem_cons_self p t) hk
        rw [hj] at this
        exact absurd this (by simp)
      simp only [prepJobs, List.filterMap_cons, hj, Option.map_some']
      rw [getKey_cons, if_neg hp]
      exact ht

theorem getKey_prepJobs (m : List (String × JVal)) (k : String) (v : JVal)
    (h : ∀ p ∈ m, p.1 = k → p.2 = v) (hg : getKey m k = some v) :
    getKey (prepJobs m) k = prepJob v := by
  induction m with
  | nil => simp [getKey_nil] at hg
  | cons p t ih =>
    rw [getKey_cons] at hg
    by_cases hpk : p.1 = k
    · rw [if_pos hpk] at hg
      injection hg with hg
      cases hj : prepJob p.2 with
      | none =>
        have ht : getKey (prepJobs t) k = none :=
          getKey_prepJobs_none t k (fun q hq hk => by
            rw [h q (List.mem_cons_of_mem p hq) hk, ← hg, hj])
        rw [prepJobs] at ht
        simp only [prepJobs, List.filterMap_cons, hj, Option.map_none']
        rw [ht, ← hg, hj]
      | some j =>
        simp only [prepJobs, List.filterMap_cons, hj, Option.map_some']
        rw [getKey_cons, if_pos hpk, ← hg, hj]
    · rw [if_neg hpk] at hg
      have ih' := ih (fun q hq hk => h q (List.mem_cons_of_mem p hq) hk) hg
      rw [prepJobs] at ih'
      cases hj : prepJob p.2 with
      | none =>
        simp only [prepJobs, List.filterMap_cons, hj, Option.map_none']
        exact ih'
      | some j =>
        simp only [prepJobs, List.filterMap_cons, hj, Option.map_some']
        rw [getKey_cons, if_neg hpk]
        exact ih'

/-! ### Characterizations of the per-field save/load transformations -/

theorem prepTimeField_none (k0 : String) (m : List (String × JVal))
    (hg : getKey m k0 = none) : prepTimeField k0 m = m := by
  rw [prepTimeField, hg]

theorem prepTimeField_dt (k0 : String) (m : List (String × JVal))
    (d : DateTime) (hg : getKey m k0 = some (.dt d)) :
    prepTimeField k0 m = setKey m k0 (.str (isoformat d)) := by
  rw [prepTimeField, hg]

theorem prepTimeField_keep (k0 : String) (m : List (String × JVal))
    (v : JVal) (hg : getKey m k0 = some v) (hd : ∀ d, v ≠ .dt d) :
    prepTimeField k0 m = m := by
  rw [prepTimeField, hg]
  cases v with
  | dt d => exact absurd rfl (hd d)
  | str s => rfl
  | num n => rfl
  | bool b => rfl
  | null => rfl
  | arr xs => rfl
  | obj mm => rfl
  | nonser => rfl

theorem prepActivities_none (m : List (String × JVal))
    (hg : getKey m "activities" = none) : prepActivities m = m := by
  rw [prepActivities, hg]

theorem prepActivities_arr (m : List (String × JVal)) (xs : List JVal)
    (hg : getKey m "activities" = some (.arr xs)) :
    prepActivities m = setKey m "activities" (.arr (xs.filter JVal.isObj)) := by
  rw [prepActivities, hg]

theorem prepActivities_other (m : List (String × JVal)) (v : JVal)
    (hg : getKey m "activities" = some v) (ha : ∀ xs, v ≠ .arr xs) :
    prepActivities m = setKey m "activities" (.arr []) := by
  rw [prepActivities, hg]
  cases v with
  | arr xs => exact absurd rfl (ha xs)
  | str s => rfl
  | num n => rfl
  | bool b => rfl
  | null => rfl
  | dt d => rfl
  | obj mm => rfl
  | nonser => rfl

theorem fixTimeField_none (k0 : String) (m : List (String × JVal))
    (hg : getKey m k0 = none) : fixTimeField k0 m = m := by
  rw [fixTimeField, hg]

theorem fixTimeField_parse (k0 : String) (m : List (String × JVal))
    (s : String) (d : DateTime) (hg : getKey m k0 = some (.str s))
    (hne : s ≠ "") (hp : fromisoformat s = some d) :
    fixTimeField k0 m = setKey m k0 (.dt d) := by
  rw [fixTimeField, hg]
  dsimp only
  rw [if_pos (by simp [truthy, hne])]
  rw [hp]

theorem fixTimeField_keep_str (k0 : String) (m : List (String × JVal))
    (s : String) (hg : getKey m k0 = some (.str s))
    (hp : fromisoformat s = none) : fixTimeField k0 m = m := by
  rw [fixTimeField, hg]
  dsimp only
  by_cases ht : truthy (.str s)
  · rw [if_pos ht]
    rw [hp]
  · rw [if_neg ht]

theorem fixTimeField_keep_other (k0 : String) (m : List (String × JVal))
    (v : JVal) (hg : getKey m k0 = some v) (hs : ∀ s, v ≠ .str s) :
    fixTimeField k0 m = m := by
  rw [fixTimeField, hg]
  cases v with
  | str s => exact absurd rfl (hs s)
  | num n => dsimp only; split <;> rfl
  | bool b => dsimp only; split <;> rfl
  | null => dsimp only; split <;> rfl
  | dt d => dsimp only; split <;> rfl
  | arr xs => dsimp only; split <;> rfl
  | obj mm => dsimp only; split <;> rfl
  | nonser => dsimp only; split <;> rfl

theorem fixActivities_none (m : List (String × JVal))
    (hg : getKey m "activities" = none) : fixActivities m = m := by
  rw [fixActivities, hg]

theorem fixActivities_arr (m : List (String × JVal)) (xs : List JVal)
    (hg : getKey m "activities" = some (.arr xs)) : fixActivities m = m := by
  rw [fixActivities, hg]
  rfl

theorem fixActivities_nonarr (m : List (String × JVal)) (v : JVal)
    (hg : getKey m "activities" = some v) (ha : v.isArr = false) :
    fixActivities m = setKey m "activities" (.arr []) := by
  rw [fixActivities, hg]
  dsimp only
  rw [ha]
  rfl

/-! ### Claims C6, C7 -/

theorem ensureJobsFile_of_some (fs : FS) (c : FileContent)
    (hp : fs.primary = some c) : ensureJobsFile fs = fs := by
  rw [ensureJobsFile, hp]

/-- C6: `save_jobs` writes the serializable copy to a temporary location
and validates it before replacing the primary file; whenever preparation,
writing or validation fails — in particular when a record carries a
non-serializable field, which makes `json.dump` raise — it returns
`false` and the primary file's content is exactly what it was before the
call; the primary is replaced (atomically, by `os.replace`) only on
success, and then holds exactly the validated serialized collection. -/
theorem claim_C6_save_failure_preserves_primary
    (jobs : List (String × JVal)) (fs : FS) (c : FileContent)
    (hp : fs.primary = some c) :
    ((saveJobsInternal jobs fs).1 = false →
      (saveJobsInternal jobs fs).2.primary = some c) ∧
    (dumpFields (prepJobs jobs) = none →
      (saveJobsInternal jobs fs).1 = false ∧
      (saveJobsInternal jobs fs).2.primary = some c) ∧
    ((saveJobsInternal jobs fs).1 = true →
      ∃ out, dumpFields (prepJobs jobs) = some out ∧
        (saveJobsInternal jobs fs).2.primary = some (.json (.obj out))) := by
  have he : ensureJobsFile fs = fs := ensureJobsFile_of_some fs c hp
  rw [saveJobsInternal, he]
  by_cases h1 : (prepJobs jobs).isEmpty ∧ ¬ jobs.isEmpty
  · simp [h1, hp]
  · simp only [h1, if_false]
    cases hd : dumpFields (prepJobs jobs) with
    | none => simp [hp]
    | some out => simp

/-- Witness for C6: a record with a non-serializable field makes the save
fail and leaves the primary file unchanged. -/
theorem claim_C6_save_failure_preserves_primary_witness :
    ((saveJobsInternal [("j", .obj [("x", .nonser)])]
        ⟨some (.json (.obj [])), none⟩).1 = false →
      (saveJobsInternal [("j", .obj [("x", .nonser)])]
        ⟨some (.json (.obj [])), none⟩).2.primary =
        some (.json (.obj []))) ∧
    (dumpFields (prepJobs [("j", .obj [("x", .nonser)])]) = none →
      (saveJobsInternal [("j", .obj [("x", .nonser)])]
        ⟨some (.json (.obj [])), none⟩).1 = false ∧
      (saveJobsInternal [("j", .obj [("x", .nonser)])]
        ⟨some (.json (.obj [])), none⟩).2.primary =
        some (.json (.obj []))) ∧
    ((saveJobsInternal [("j", .obj [("x", .nonser)])]
        ⟨some (.json (.obj [])), none⟩).1 = true →
      ∃ out, dumpFields (prepJobs [("j", .obj [("x", .nonser)])]) =
          some out ∧
        (saveJobsInternal [("j", .obj [("x", .nonser)])]
          ⟨some (.json (.obj [])), none⟩).2.primary =
          some (.json (.obj out))) :=
  claim_C6_save_failure_preserves_primary
    [("j", .obj [("x", .nonser)])] ⟨some (.json (.obj [])), none⟩
    (.json (.obj [])) rfl

/-- C7 is false as stated: a storage file whose content is valid JSON but
not a top-level mapping is malformed in the claim's sense, and `load_jobs`
returns an empty collection and resets the file — but no backup of the
bad content exists afterwards (the backup is created only on a JSON parse
error). -/
theorem claim_C7_counterexample :
    ((loadJobsInternal nowSample fsNonMap).1 = []) ∧
    ((loadJobsInternal nowSample fsNonMap).2.backup = none) ∧
    ((loadJobsInternal nowSample fsNonMap).2.primary =
      some (.json (.obj []))) ∧
    ((JVal.arr []).isObj = false) := by
  exact ⟨rfl, rfl, rfl, rfl⟩

/-- C7 (amended): on a JSON parse error, `load_jobs` returns an empty
collection, resets the storage to an empty mapping and a backup of the
original bad content exists afterwards; on valid JSON that is not a
top-level mapping it returns empty and resets the storage but creates no
backup; on an unreadable file it returns empty and leaves storage alone.
It never raises (it is a total function). -/
theorem claim_C7_corruption_recovery (now : DateTime) (fs : FS) :
    (∀ s, fs.primary = some (.invalid s) →
      (loadJobsInternal now fs).1 = [] ∧
      (loadJobsInternal now fs).2.backup = some (.invalid s) ∧
      (loadJobsInternal now fs).2.primary = some (.json (.obj []))) ∧
    (∀ v : JVal, fs.primary = some (.json v) → v.isObj = false →
      (loadJobsInternal now fs).1 = [] ∧
      (loadJobsInternal now fs).2.backup = fs.backup ∧
      (loadJobsInternal now fs).2.primary = some (.json (.obj []))) ∧
    (fs.primary = some .unreadable →
      (loadJobsInternal now fs).1 = [] ∧
      (loadJobsInternal now fs).2 = fs) := by
  refine ⟨?_, ?_, ?_⟩
  · intro s hp
    rw [loadJobsInternal, ensureJobsFile_of_some fs _ hp]
    simp [hp]
  · intro v hp hobj
    rw [loadJobsInternal, ensureJobsFile_of_some fs _ hp]
    cases v with
    | obj m => simp [JVal.isObj] at hobj
    | str s => simp [hp]
    | num n => simp [hp]
    | bool b => simp [hp]
    | null => simp [hp]
    | dt d => simp [hp]
    | arr xs => simp [hp]
    | nonser => simp [hp]
  · intro hp
    rw [loadJobsInternal, ensureJobsFile_of_some fs _ hp]
    simp [hp]

/-- Witness for the amended C7: a file with invalid JSON text. -/
theorem claim_C7_corruption_recovery_witness :
    (loadJobsInternal nowSample ⟨some (.invalid "oops"), none⟩).1 = [] ∧
    (loadJobsInternal nowSample ⟨some (.invalid "oops"), none⟩).2.backup =
      some (.invalid "oops") ∧
    (loadJobsInternal nowSample ⟨some (.invalid "oops"), none⟩).2.primary =
      some (.json (.obj [])) :=
  (claim_C7_corruption_recovery nowSample
    ⟨some (.invalid "oops"), none⟩).1 "oops" rfl

theorem getKey_prepTimeField_ne (k0 k : String) (m : List (String × JVal))
    (h : k ≠ k0) : getKey (prepTimeField k0 m) k = getKey m k := by
  rw [prepTimeField]
  cases hg : getKey m k0 with
  | none => rfl
  | some v =>
    cases v with
    | dt d => exact getKey_setKey_ne m k0 k _ h
    | str s => rfl
    | num n => rfl
    | bool b => rfl
    | null => rfl
    | arr xs => rfl
    | obj mm => rfl
    | nonser => rfl

theorem getKey_prepActivities_ne (k : String) (m : List (String × JVal))
    (h : k ≠ "activities") :
    getKey (prepActivities m) k = getKey m k := by
  rw [prepActivities]
  cases hg : getKey m "activities" with
  | none => rfl
  | some v =>
    cases v with
    | arr xs => exact getKey_setKey_ne m _ k _ h
    | str s => exact getKey_setKey_ne m _ k _ h
    | num n => exact getKey_setKey_ne m _ k _ h
    | bool b => exact getKey_setKey_ne m _ k _ h
    | null => exact getKey_setKey_ne m _ k _ h
    | dt d => exact getKey_setKey_ne m _ k _ h
    | obj mm => exact getKey_setKey_ne m _ k _ h
    | nonser => exact getKey_setKey_ne m _ k _ h

theorem getKey_fixTimeField_ne (k0 k : String) (m : List (String × JVal))
    (h : k ≠ k0) : getKey (fixTimeField k0 m) k = getKey m k := by
  rw [fixTimeField]
  cases hg : getKey m k0 with
  | none => rfl
  | some v =>
    dsimp only
    by_cases ht : truthy v
    · rw [if_pos ht]
      cases v with
      | str s =>
        dsimp only
        cases hp : fromisoformat s with
        | some d => exact getKey_setKey_ne m k0 k _ h
        | none => rfl
      | num n => rfl
      | bool b => rfl
      | null => rfl
      | dt d => rfl
      | arr xs => rfl
      | obj mm => rfl
      | nonser => rfl
    · rw [if_neg ht]

theorem getKey_fixActivities_ne (k : String) (m : List (String × JVal))
    (h : k ≠ "activities") :
    getKey (fixActivities m) k = getKey m k := by
  rw [fixActivities]
  cases hg : getKey m "activities" with
  | none => rfl
  | some v =>
    dsimp only
    by_cases ha : v.isArr
    · rw [if_pos ha]
    · rw [if_neg ha]
      exact getKey_setKey_ne m _ k _ h

/-- C10 is false as stated: this record's `start_time` string fails ISO
parsing and is kept as a string during load, yet `clean_old_jobs` removes
the record, because the selected comparison value is the `end_time`,
which parsed to a valid old datetime. -/
theorem claim_C10_counterexample :
    (fromisoformat "garbage" = none) ∧
    (getJob nowSample "j" fsBadStart = some (.obj
      [("start_time", .str "garbage"),
       ("end_time", .dt ⟨2020, 1, 1, 0, 0, 0⟩)])) ∧
    ((cleanOldJobs nowSample cutoffSample fsBadStart).1 = 1) ∧
    ((cleanOldJobs nowSample cutoffSample fsBadStart).2.primary =
      some (.json (.obj []))) := by
  exact ⟨rfl, rfl, rfl, rfl⟩

/-- C10 (amended): a `start_time` string that fails ISO parsing is kept
as a string during load; and a record is protected from removal exactly
when the *selected* comparison value (`end_time` if present and truthy,
else `start_time`) is not an actual datetime — in particular when it is
such a kept string.  A record with an unparseable `start_time` but a
valid old `end_time` is still removed (see the counterexample). -/
theorem claim_C10_unparsed_time_never_removed
    (now cutoff : DateTime) (m : List (String × JVal)) (s : String)
    (jobs : List (String × JVal)) (id : String) :
    (getKey m "start_time" = some (.str s) → fromisoformat s = none →
      ∃ m2, loadFixJob now (.obj m) = .obj m2 ∧
        getKey m2 "start_time" = some (.str s)) ∧
    (∀ t, jobTime m = some (.str t) →
      shouldRemove cutoff (.obj m) = false) ∧
    ((∀ v, (id, v) ∈ jobs → shouldRemove cutoff v = false) →
      id ∉ cleanTargets cutoff jobs) := by
  refine ⟨?_, ?_, ?_⟩
  · intro hg hp
    refine ⟨_, rfl, ?_⟩
    rw [getKey_fixActivities_ne _ _ (by decide),
      getKey_fixTimeField_ne _ _ _ (by decide),
      fixTimeField_keep_str _ _ _ hg hp]
    exact hg
  · intro t hjt
    rw [shouldRemove, hjt]
  · intro hall hmem
    rw [cleanTargets] at hmem
    rcases List.mem_map.1 hmem with ⟨p, hp, he⟩
    rcases List.mem_filter.1 hp with ⟨hin, hrem⟩
    have : shouldRemove cutoff p.2 = false := by
      refine hall p.2 ?_
      have : p = (id, p.2) := by
        rw [← he]
      rw [← this]
      exact hin
    rw [this] at hrem
    exact absurd hrem (by simp)

/-- Witness for the amended C10 at the counterexample record's fields. -/
theorem claim_C10_unparsed_time_never_removed_witness :
    (∃ m2, loadFixJob nowSample
        (.obj [("start_time", .str "garbage")]) = .obj m2 ∧
      getKey m2 "start_time" = some (.str "garbage")) ∧
    (shouldRemove cutoffSample
      (.obj [("start_time", .str "garbage")]) = false) ∧
    ("x" ∉ cleanTargets cutoffSample
      [("x", .obj [("start_time", .str "garbage")])]) := by
  have h := claim_C10_unparsed_time_never_removed nowSample cutoffSample
    [("start_time", .str "garbage")] "garbage"
    [("x", .obj [("start_time", .str "garbage")])] "x"
  refine ⟨h.1 rfl rfl, h.2.1 "garbage" rfl, h.2.2 ?_⟩
  intro v hv
  simp only [List.mem_singleton, Prod.mk.injEq] at hv
  rw [hv.2]
  rfl

/-! ### Serializability through the save/load pipeline -/

theorem mem_setKey_strong (m : List (String × JVal)) (k : String)
    (v : JVal) (q : String × JVal) (hq : q ∈ setKey m k v) :
    (q ∈ m ∧ q.1 ≠ k) ∨ q = (k, v) := by
  rw [setKey] at hq
  split at hq
  · rcases List.mem_map.1 hq with ⟨p, hp, he⟩
    by_cases hpk : p.1 = k
    · rw [if_pos hpk] at he
      exact Or.inr he.symm
    · rw [if_neg hpk] at he
      exact Or.inl ⟨he ▸ hp, by rw [← he]; exact hpk⟩
  · rename_i hany
    rcases List.mem_append.1 hq with h | h
    · refine Or.inl ⟨h, ?_⟩
      intro hk
      have : m.any (fun p => p.1 = k) = true :=
        List.any_eq_true.2 ⟨q, h, by simp [hk]⟩
      exact hany this
    · simp only [List.mem_singleton] at h
      exact Or.inr h

theorem keys_prepTimeField (k0 : String) (m : List (String × JVal)) :
    (prepTimeField k0 m).map Prod.fst = m.map Prod.fst := by
  rw [prepTimeField]
  cases hg : getKey m k0 with
  | none => rfl
  | some v =>
    cases v with
    | dt d => exact keys_setKey_of_any m k0 _ (any_of_getKey_some m k0 _ hg)
    | str s => rfl
    | num n => rfl
    | bool b => rfl
    | null => rfl
    | arr xs => rfl
    | obj mm => rfl
    | nonser => rfl

theorem keys_prepActivities (m : List (String × JVal)) :
    (prepActivities m).map Prod.fst = m.map Prod.fst := by
  rw [prepActivities]
  cases hg : getKey m "activities" with
  | none => rfl
  | some v =>
    have ha := any_of_getKey_some m "activities" _ hg
    cases v with
    | arr xs => exact keys_setKey_of_any m _ _ ha
    | str s => exact keys_setKey_of_any m _ _ ha
    | num n => exact keys_setKey_of_any m _ _ ha
    | bool b => exact keys_setKey_of_any m _ _ ha
    | null => exact keys_setKey_of_any m _ _ ha
    | dt d => exact keys_setKey_of_any m _ _ ha
    | obj mm => exact keys_setKey_of_any m _ _ ha
    | nonser => exact keys_setKey_of_any m _ _ ha

theorem keys_fixTimeField (k0 : String) (m : List (String × JVal)) :
    (fixTimeField k0 m).map Prod.fst = m.map Prod.fst := by
  rw [fixTimeField]
  cases hg : getKey m k0 with
  | none => rfl
  | some v =>
    have ha := any_of_getKey_some m k0 _ hg
    dsimp only
    by_cases ht : truthy v
    · rw [if_pos ht]
      cases v with
      | str s =>
        dsimp only
        cases hp : fromisoformat s with
        | some d => exact keys_setKey_of_any m k0 _ ha
        | none => rfl
      | num n => rfl
      | bool b => rfl
      | null => rfl
      | dt d => rfl
      | arr xs => rfl
      | obj mm => rfl
      | nonser => rfl
    · rw [if_neg ht]

theorem keys_fixActivities (m : List (String × JVal)) :
    (fixActivities m).map Prod.fst = m.map Prod.fst := by
  rw [fixActivities]
  cases hg : getKey m "activities" with
  | none => rfl
  | some v =>
    have ha := any_of_getKey_some m "activities" _ hg
    dsimp only
    by_cases hv : v.isArr
    · rw [if_pos hv]
    · rw [if_neg hv]
      exact keys_setKey_of_any m _ _ ha

theorem dumpFields_forall_isSome (m out : List (String × JVal))
    (h : dumpFields m = some out) : ∀ p ∈ m, (dumpVal p.2).isSome := by
  induction m generalizing out with
  | nil => intro p hp; simp at hp
  | cons p t ih =>
    rw [dumpFields] at h
    cases hd : dumpVal p.2 with
    | none => rw [hd] at h; exact absurd h (by simp)
    | some y =>
      cases ht : dumpFields t with
      | none => rw [hd, ht] at h; exact absurd h (by simp)
      | some ys =>
        intro q hq
        rcases List.mem_cons.1 hq with hh | hh
        · rw [hh, hd]; rfl
        · exact ih ys ht q hh

theorem dumpList_forall_isSome (xs ys : List JVal)
    (h : dumpList xs = some ys) : ∀ x ∈ xs, (dumpVal x).isSome := by
  induction xs generalizing ys with
  | nil => intro x hx; simp at hx
  | cons x t ih =>
    rw [dumpList] at h
    cases hd : dumpVal x with
    | none => rw [hd] at h; exact absurd h (by simp)
    | some y =>
      cases ht : dumpList t with
      | none => rw [hd, ht] at h; exact absurd h (by simp)
      | some ys' =>
        intro z hz
        rcases List.mem_cons.1 hz with hh | hh
        · rw [hh, hd]; rfl
        · exact ih ys' ht z hh

theorem dumpList_exists_of_pointwise (xs : List JVal)
    (h : ∀ x ∈ xs, (dumpVal x).isSome) : ∃ ys, dumpList xs = some ys := by
  induction xs with
  | nil => exact ⟨[], rfl⟩
  | cons x t ih =>
    obtain ⟨y, hy⟩ :=
      Option.isSome_iff_exists.1 (h x (List.mem_cons_self x t))
    obtain ⟨ys, hys⟩ := ih (fun z hz => h z (List.mem_cons_of_mem x hz))
    exact ⟨y :: ys, by rw [dumpList, hy, hys]⟩

theorem serializable_obj_iff (m : List (String × JVal)) :
    serializableJV (.obj m) ↔ ∀ p ∈ m, (dumpVal p.2).isSome := by
  constructor
  · intro h
    rw [serializableJV, dumpVal] at h
    cases hf : dumpFields m with
    | none => rw [hf] at h; exact absurd h (by simp)
    | some fs => exact dumpFields_forall_isSome m fs hf
  · intro h
    obtain ⟨out, hout⟩ := dumpFields_exists_of_pointwise m h
    rw [serializableJV, dumpVal, hout]
    rfl

theorem serializable_arr_iff (xs : List JVal) :
    serializableJV (.arr xs) ↔ ∀ x ∈ xs, (dumpVal x).isSome := by
  constructor
  · intro h
    rw [serializableJV, dumpVal] at h
    cases hl : dumpList xs with
    | none => rw [hl] at h; exact absurd h (by simp)
    | some ys => exact dumpList_forall_isSome xs ys hl
  · intro h
    obtain ⟨ys, hys⟩ := dumpList_exists_of_pointwise xs h
    rw [serializableJV, dumpVal, hys]
    rfl

theorem serializable_setKey (m : List (String × JVal)) (k : String)
    (v : JVal) (hm : ∀ p ∈ m, (dumpVal p.2).isSome)
    (hv : (dumpVal v).isSome) :
    ∀ p ∈ setKey m k v, (dumpVal p.2).isSome := by
  intro q hq
  rcases mem_setKey_strong m k v q hq with ⟨hin, _⟩ | he
  · exact hm q hin
  · rw [he]
    exact hv

theorem serializable_placeholder (now : DateTime) :
    serializableJV (placeholderJob now) := by
  rw [serializableJV, placeholderJob]
  simp [dumpVal, dumpFields, dumpList]

theorem dumpList_of_pointwise (xs : List JVal)
    (h : ∀ x ∈ xs, dumpVal x = some x) : dumpList xs = some xs := by
  induction xs with
  | nil => rfl
  | cons x t ih =>
    rw [dumpList, h x (List.mem_cons_self x t),
      ih (fun z hz => h z (List.mem_cons_of_mem x hz))]

theorem dumpList_pointwise_self (xs : List JVal)
    (h : dumpList xs = some xs) : ∀ x ∈ xs, dumpVal x = some x := by
  induction xs with
  | nil => intro x hx; simp at hx
  | cons x t ih =>
    rw [dumpList] at h
    cases hd : dumpVal x with
    | none => rw [hd] at h; exact absurd h (by simp)
    | some y =>
      cases ht : dumpList t with
      | none => rw [hd, ht] at h; exact absurd h (by simp)
      | some ys =>
        rw [hd, ht] at h
        injection h with h
        injection h with h1 h2
        subst h2
        intro z hz
        rcases List.mem_cons.1 hz with hh | hh
        · rw [hh, hd, h1]
        · exact ih ht z hh

theorem pureJson_str (s : String) : pureJson (.str s) := rfl

theorem pureJson_arr_of_pointwise (xs : List JVal)
    (h : ∀ x ∈ xs, dumpVal x = some x) : pureJson (.arr xs) := by
  rw [pureJson, dumpVal, dumpList_of_pointwise xs h]

theorem pureJson_arr_elems (xs : List JVal) (h : pureJson (.arr xs)) :
    ∀ x ∈ xs, dumpVal x = some x := by
  rw [pureJson, dumpVal] at h
  cases hl : dumpList xs with
  | none => rw [hl] at h; exact absurd h (by simp)
  | some ys =>
    rw [hl] at h
    injection h with h
    injection h with h
    rw [h] at hl
    exact dumpList_pointwise_self xs hl

theorem pureJson_obj_of_pointwise (m : List (String × JVal))
    (h : ∀ p ∈ m, dumpVal p.2 = some p.2) : pureJson (.obj m) := by
  rw [pureJson, dumpVal, dumpFields_of_pointwise m h]

theorem getKey_of_mem_nodup (m : List (String × JVal))
    (hnd : (m.map Prod.fst).Nodup) (q : String × JVal) (hq : q ∈ m) :
    getKey m q.1 = some q.2 := by
  induction m with
  | nil => simp at hq
  | cons p t ih =>
    simp only [List.map_cons, List.nodup_cons] at hnd
    rcases List.mem_cons.1 hq with hh | hh
    · rw [hh, getKey_cons, if_pos rfl]
    · rw [getKey_cons]
      have hne : ¬ p.1 = q.1 := by
        intro he
        exact hnd.1 (he ▸ List.mem_map_of_mem Prod.fst hh)
      rw [if_neg hne]
      exact ih hnd.2 hh

theorem getKey_prepTimeField_eq (k0 : String) (m : List (String × JVal)) :
    getKey (prepTimeField k0 m) k0 =
      match getKey m k0 with
      | some (.dt d) => some (.str (isoformat d))
      | o => o := by
  cases hg : getKey m k0 with
  | none => rw [prepTimeField_none k0 m hg, hg]
  | some v =>
    cases v with
    | dt d =>
      rw [prepTimeField_dt k0 m d hg]
      exact getKey_setKey_self m k0 _
    | str s => rw [prepTimeField_keep k0 m _ hg (by simp), hg]
    | num n => rw [prepTimeField_keep k0 m _ hg (by simp), hg]
    | bool b => rw [prepTimeField_keep k0 m _ hg (by simp), hg]
    | null => rw [prepTimeField_keep k0 m _ hg (by simp), hg]
    | arr xs => rw [prepTimeField_keep k0 m _ hg (by simp), hg]
    | obj mm => rw [prepTimeField_keep k0 m _ hg (by simp), hg]
    | nonser => rw [prepTimeField_keep k0 m _ hg (by simp), hg]

theorem getKey_prepActivities_eq (m : List (String × JVal)) :
    getKey (prepActivities m) "activities" =
      match getKey m "activities" with
      | some (.arr xs) => some (.arr (xs.filter JVal.isObj))
      | some _ => some (.arr [])
      | none => none := by
  cases hg : getKey m "activities" with
  | none => rw [prepActivities_none m hg, hg]
  | some v =>
    cases v with
    | arr xs =>
      rw [prepActivities_arr m xs hg]
      exact getKey_setKey_self m _ _
    | str s =>
      rw [prepActivities_other m _ hg (by simp)]
      exact getKey_setKey_self m _ _
    | num n =>
      rw [prepActivities_other m _ hg (by simp)]
      exact getKey_setKey_self m _ _
    | bool b =>
      rw [prepActivities_other m _ hg (by simp)]
      exact getKey_setKey_self m _ _
    | null =>
      rw [prepActivities_other m _ hg (by simp)]
      exact getKey_setKey_self m _ _
    | dt d =>
      rw [prepActivities_other m _ hg (by simp)]
      exact getKey_setKey_self m _ _
    | obj mm =>
      rw [prepActivities_other m _ hg (by simp)]
      exact getKey_setKey_self m _ _
    | nonser =>
      rw [prepActivities_other m _ hg (by simp)]
      exact getKey_setKey_self m _ _

theorem mem_prepTimeField (k0 : String) (m : List (String × JVal))
    (q : String × JVal) (hq : q ∈ prepTimeField k0 m) :
    q ∈ m ∨ ∃ d, q = (k0, .str (isoformat d)) := by
  rw [prepTimeField] at hq
  cases hg : getKey m k0 with
  | none => rw [hg] at hq; exact Or.inl hq
  | some v =>
    rw [hg] at hq
    cases v with
    | dt d =>
      rcases mem_setKey_strong m k0 _ q hq with ⟨hin, _⟩ | he
      · exact Or.inl hin
      · exact Or.inr ⟨d, he⟩
    | str s => exact Or.inl hq
    | num n => exact Or.inl hq
    | bool b => exact Or.inl hq
    | null => exact Or.inl hq
    | arr xs => exact Or.inl hq
    | obj mm => exact Or.inl hq
    | nonser => exact Or.inl hq

theorem mem_prepActivities (m : List (String × JVal)) (q : String × JVal)
    (hq : q ∈ prepActivities m) :
    q ∈ m ∨
    (∃ xs, getKey m "activities" = some (.arr xs) ∧
      q = ("activities", .arr (xs.filter JVal.isObj))) ∨
    q = ("activities", .arr []) := by
  rw [prepActivities] at hq
  cases hg : getKey m "activities" with
  | none => rw [hg] at hq; exact Or.inl hq
  | some v =>
    rw [hg] at hq
    cases v with
    | arr xs =>
      rcases mem_setKey_strong m _ _ q hq with ⟨hin, _⟩ | he
      · exact Or.inl hin
      · exact Or.inr (Or.inl ⟨xs, rfl, he⟩)
    | str s =>
      rcases mem_setKey_strong m _ _ q hq with ⟨hin, _⟩ | he
      · exact Or.inl hin
      · exact Or.inr (Or.inr he)
    | num n =>
      rcases mem_setKey_strong m _ _ q hq with ⟨hin, _⟩ | he
      · exact Or.inl hin
      · exact Or.inr (Or.inr he)
    | bool b =>
      rcases mem_setKey_strong m _ _ q hq with ⟨hin, _⟩ | he
      · exact Or.inl hin
      · exact Or.inr (Or.inr he)
    | null =>
      rcases mem_setKey_strong m _ _ q hq with ⟨hin, _⟩ | he
      · exact Or.inl hin
      · exact Or.inr (Or.inr he)
    | dt d =>
      rcases mem_setKey_strong m _ _ q hq with ⟨hin, _⟩ | he
      · exact Or.inl hin
      · exact Or.inr (Or.inr he)
    | obj mm =>
      rcases mem_setKey_strong m _ _ q hq with ⟨hin, _⟩ | he
      · exact Or.inl hin
      · exact Or.inr (Or.inr he)
    | nonser =>
      rcases mem_setKey_strong m _ _ q hq with ⟨hin, _⟩ | he
      · exact Or.inl hin
      · exact Or.inr (Or.inr he)

theorem mem_fixTimeField (k0 : String) (m : List (String × JVal))
    (q : String × JVal) (hq : q ∈ fixTimeField k0 m) :
    q ∈ m ∨ ∃ d, q = (k0, .dt d) := by
  rw [fixTimeField] at hq
  cases hg : getKey m k0 with
  | none => rw [hg] at hq; exact Or.inl hq
  | some v =>
    rw [hg] at hq
    dsimp only at hq
    by_cases ht : truthy v
    · rw [if_pos ht] at hq
      cases v with
      | str s =>
        dsimp only at hq
        cases hp : fromisoformat s with
        | some d =>
          rw [hp] at hq
          rcases mem_setKey_strong m k0 _ q hq with ⟨hin, _⟩ | he
          · exact Or.inl hin
          · exact Or.inr ⟨d, he⟩
        | none => rw [hp] at hq; exact Or.inl hq
      | num n => exact Or.inl hq
      | bool b => exact Or.inl hq
      | null => exact Or.inl hq
      | dt d => exact Or.inl hq
      | arr xs => exact Or.inl hq
      | obj mm => exact Or.inl hq
      | nonser => exact Or.inl hq
    · rw [if_neg ht] at hq
      exact Or.inl hq

theorem mem_fixActivities (m : List (String × JVal)) (q : String × JVal)
    (hq : q ∈ fixActivities m) :
    q ∈ m ∨ q = ("activities", .arr []) := by
  rw [fixActivities] at hq
  cases hg : getKey m "activities" with
  | none => rw [hg] at hq; exact Or.inl hq
  | some v =>
    rw [hg] at hq
    dsimp only at hq
    by_cases hv : v.isArr
    · rw [if_pos hv] at hq
      exact Or.inl hq
    · rw [if_neg hv] at hq
      rcases mem_setKey_strong m _ _ q hq with ⟨hin, _⟩ | he
      · exact Or.inl hin
      · exact Or.inr he

/-- Serializability survives the save-time preparation of a job. -/
theorem prep_serializable (v pv : JVal) (hv : serializableJV v)
    (hp : prepJob v = some pv) : serializableJV pv := by
  cases v with
  | obj m =>
    rw [prepJob] at hp
    injection hp with hp
    have hm : ∀ p ∈ m, (dumpVal p.2).isSome := (serializable_obj_iff m).1 hv
    have h1 : ∀ p ∈ prepTimeField "start_time" m, (dumpVal p.2).isSome := by
      intro q hq
      rcases mem_prepTimeField _ m q hq with h | ⟨d, he⟩
      · exact hm q h
      · rw [he]; rfl
    have h2 : ∀ p ∈ prepTimeField "end_time" (prepTimeField "start_time" m),
        (dumpVal p.2).isSome := by
      intro q hq
      rcases mem_prepTimeField _ _ q hq with h | ⟨d, he⟩
      · exact h1 q h
      · rw [he]; rfl
    have h3 : ∀ p ∈ prepActivities
        (prepTimeField "end_time" (prepTimeField "start_time" m)),
        (dumpVal p.2).isSome := by
      intro q hq
      rcases mem_prepActivities _ q hq with h | ⟨xs, hg, he⟩ | he
      · exact h2 q h
      · rw [he]
        obtain ⟨p, hp', hk, hv'⟩ := getKey_mem _ _ _ hg
        have hxs : (dumpVal (JVal.arr xs)).isSome := by
          have h := h2 p hp'
          rw [hv'] at h
          exact h
        refine (serializable_arr_iff _).2 ?_
        intro x hx
        exact (serializable_arr_iff xs).1 hxs x (List.mem_of_mem_filter hx)
      · rw [he]; rfl
    rw [← hp]
    exact (serializable_obj_iff _).2 h3
  | str s => exact Option.noConfusion hp
  | num n => exact Option.noConfusion hp
  | bool b => exact Option.noConfusion hp
  | null => exact Option.noConfusion hp
  | dt d => exact Option.noConfusion hp
  | arr xs => exact Option.noConfusion hp
  | nonser => exact Option.noConfusion hp

/-- Every job returned by `_load_jobs_internal` is serializable. -/
theorem load_serializable (now : DateTime) (fs : FS) (hwf : FS.wf fs) :
    ∀ p ∈ (loadJobsInternal now fs).1, (dumpVal p.2).isSome := by
  intro q hq
  rw [loadJobsInternal] at hq
  cases hp : fs.primary with
  | none =>
    rw [ensureJobsFile, hp] at hq
    simp at hq
  | some c =>
    rw [ensureJobsFile_of_some fs c hp, hp] at hq
    cases c with
    | unreadable => simp at hq
    | invalid s => simp at hq
    | json v =>
      cases v with
      | obj m0 =>
        dsimp only at hq
        rcases List.mem_map.1 hq with ⟨p, hpm, he⟩
        have hpure : pureJson p.2 := pureJson_fields m0 (hwf _ hp) p hpm
        rw [← he]
        dsimp only
        cases hval : p.2 with
        | obj mm =>
          rw [hval] at hpure
          have hm : ∀ r ∈ mm, (dumpVal r.2).isSome := by
            intro r hr
            have := pureJson_fields mm hpure r hr
            rw [this]
            rfl
          have h1 : ∀ r ∈ fixTimeField "start_time" mm,
              (dumpVal r.2).isSome := by
            intro r hr
            rcases mem_fixTimeField _ mm r hr with h | ⟨d, he'⟩
            · exact hm r h
            · rw [he']; rfl
          have h2 : ∀ r ∈ fixTimeField "end_time"
              (fixTimeField "start_time" mm), (dumpVal r.2).isSome := by
            intro r hr
            rcases mem_fixTimeField _ _ r hr with h | ⟨d, he'⟩
            · exact h1 r h
            · rw [he']; rfl
          have h3 : ∀ r ∈ fixActivities (fixTimeField "end_time"
              (fixTimeField "start_time" mm)), (dumpVal r.2).isSome := by
            intro r hr
            rcases mem_fixActivities _ r hr with h | he'
            · exact h2 r h
            · rw [he']; rfl
          exact (serializable_obj_iff _).2 h3
        | str s => exact serializable_placeholder now
        | num n => exact serializable_placeholder now
        | bool b => exact serializable_placeholder now
        | null => exact serializable_placeholder now
        | dt d => exact serializable_placeholder now
        | arr xs => exact serializable_placeholder now
        | nonser => exact serializable_placeholder now
      | str s => simp at hq
      | num n => simp at hq
      | bool b => simp at hq
      | null => simp at hq
      | dt d => simp at hq
      | arr xs => simp at hq
      | nonser => simp at hq

theorem prepJob_obj (m : List (String × JVal)) :
    prepJob (.obj m) = some (.obj (prepFields m)) := rfl

theorem loadFixJob_obj (now : DateTime) (m : List (String × JVal)) :
    loadFixJob now (.obj m) = .obj (fixFields m) := rfl

theorem keys_prepFields (m : List (String × JVal)) :
    (prepFields m).map Prod.fst = m.map Prod.fst := by
  rw [prepFields, keys_prepActivities, keys_prepTimeField,
    keys_prepTimeField]

theorem keys_fixFields (m : List (String × JVal)) :
    (fixFields m).map Prod.fst = m.map Prod.fst := by
  rw [fixFields, keys_fixActivities, keys_fixTimeField, keys_fixTimeField]

theorem getKey_prepFields_start (m : List (String × JVal)) :
    getKey (prepFields m) "start_time" =
      match getKey m "start_time" with
      | some (.dt d) => some (.str (isoformat d))
      | o => o := by
  rw [prepFields, getKey_prepActivities_ne _ _ (by decide),
    getKey_prepTimeField_ne "end_time" _ _ (by decide),
    getKey_prepTimeField_eq]

theorem getKey_prepFields_end (m : List (String × JVal)) :
    getKey (prepFields m) "end_time" =
      match getKey m "end_time" with
      | some (.dt d) => some (.str (isoformat d))
      | o => o := by
  rw [prepFields, getKey_prepActivities_ne _ _ (by decide),
    getKey_prepTimeField_eq,
    getKey_prepTimeField_ne "start_time" _ _ (by decide)]

theorem getKey_prepFields_act (m : List (String × JVal)) :
    getKey (prepFields m) "activities" =
      match getKey m "activities" with
      | some (.arr xs) => some (.arr (xs.filter JVal.isObj))
      | some _ => some (.arr [])
      | none => none := by
  rw [prepFields, getKey_prepActivities_eq,
    getKey_prepTimeField_ne "end_time" _ _ (by decide),
    getKey_prepTimeField_ne "start_time" _ _ (by decide)]

theorem getKey_prepFields_other (m : List (String × JVal)) (k : String)
    (h1 : k ≠ "start_time") (h2 : k ≠ "end_time")
    (h3 : k ≠ "activities") :
    getKey (prepFields m) k = getKey m k := by
  rw [prepFields, getKey_prepActivities_ne _ _ h3,
    getKey_prepTimeField_ne "end_time" _ _ h2,
    getKey_prepTimeField_ne "start_time" _ _ h1]

/-- Load-time fixups undo the save-time preparation on a well-formed
record: the composite is the identity. -/
theorem fixFields_prepFields (m : List (String × JVal))
    (hnd : (m.map Prod.fst).Nodup)
    (hfield : ∀ p ∈ m, pureJson p.2 ∨
        ((p.1 = "start_time" ∨ p.1 = "end_time") ∧
          ∃ d, p.2 = .dt d ∧ d.boundsOK = true))
    (hst : ∀ s, getKey m "start_time" = some (.str s) →
        fromisoformat s = none)
    (het : ∀ s, getKey m "end_time" = some (.str s) →
        fromisoformat s = none)
    (hact : ∀ v, getKey m "activities" = some v →
        ∃ xs, v = .arr xs ∧ ∀ x ∈ xs, x.isObj = true) :
    fixFields (prepFields m) = m := by
  have htime : ∀ (k0 : String) (L : List (String × JVal)),
      (∀ s, getKey m k0 = some (.str s) → fromisoformat s = none) →
      getKey L k0 =
        (match getKey m k0 with
         | some (.dt d) => some (.str (isoformat d))
         | o => o) →
      getKey (fixTimeField k0 L) k0 = getKey m k0 := by
    intro k0 L hparse hpf
    cases hg : getKey m k0 with
    | none =>
      rw [hg] at hpf
      have hpf' : getKey L k0 = none := hpf
      rw [fixTimeField_none k0 L hpf', hpf']
    | some v =>
      rw [hg] at hpf
      cases v with
      | dt d =>
        have hpf' : getKey L k0 = some (.str (isoformat d)) := hpf
        have hbd : d.boundsOK = true := by
          obtain ⟨p, hpm, hk, hv⟩ := getKey_mem m k0 _ hg
          rcases hfield p hpm with hpure | ⟨_, e, he, hb⟩
          · rw [hv] at hpure
            exact absurd hpure (pureJson_not_dt d)
          · rw [hv] at he
            injection he with he
            rw [← he] at hb
            exact hb
        rw [fixTimeField_parse k0 L (isoformat d) d hpf'
            (isoformat_ne_empty d) (fromisoformat_isoformat d hbd)]
        exact getKey_setKey_self L k0 _
      | str s =>
        have hpf' : getKey L k0 = some (.str s) := hpf
        rw [fixTimeField_keep_str k0 L s hpf' (hparse s hg), hpf']
      | num n =>
        have hpf' : getKey L k0 = some (.num n) := hpf
        rw [fixTimeField_keep_other k0 L _ hpf' (by simp), hpf']
      | bool b =>
        have hpf' : getKey L k0 = some (.bool b) := hpf
        rw [fixTimeField_keep_other k0 L _ hpf' (by simp), hpf']
      | null =>
        have hpf' : getKey L k0 = some .null := hpf
        rw [fixTimeField_keep_other k0 L _ hpf' (by simp), hpf']
      | arr xs =>
        have hpf' : getKey L k0 = some (.arr xs) := hpf
        rw [fixTimeField_keep_other k0 L _ hpf' (by simp), hpf']
      | obj mm =>
        have hpf' : getKey L k0 = some (.obj mm) := hpf
        rw [fixTimeField_keep_other k0 L _ hpf' (by simp), hpf']
      | nonser =>
        have hpf' : getKey L k0 = some .nonser := hpf
        rw [fixTimeField_keep_other k0 L _ hpf' (by simp), hpf']
  refine assoc_ext _ m ?_ ?_ ?_
  · rw [fixFields, keys_fixActivities, keys_fixTimeField,
      keys_fixTimeField, keys_prepFields]
  · rw [fixFields, keys_fixActivities, keys_fixTimeField,
      keys_fixTimeField, keys_prepFields]
    exact hnd
  · intro k
    by_cases hk1 : k = "start_time"
    · subst hk1
      rw [fixFields, getKey_fixActivities_ne _ _ (by decide),
        getKey_fixTimeField_ne "end_time" _ _ (by decide)]
      exact htime _ _ hst (getKey_prepFields_start m)
    · by_cases hk2 : k = "end_time"
      · subst hk2
        rw [fixFields, getKey_fixActivities_ne _ _ (by decide)]
        refine htime _ _ het ?_
        rw [getKey_fixTimeField_ne "start_time" _ _ (by decide)]
        exact getKey_prepFields_end m
      · by_cases hk3 : k = "activities"
        · subst hk3
          rw [fixFields]
          have hY : getKey (fixTimeField "end_time"
              (fixTimeField "start_time" (prepFields m))) "activities" =
              getKey (prepFields m) "activities" := by
            rw [getKey_fixTimeField_ne "end_time" _ _ (by decide),
              getKey_fixTimeField_ne "start_time" _ _ (by decide)]
          cases hg : getKey m "activities" with
          | none =>
            have hX : getKey (prepFields m) "activities" = none := by
              rw [getKey_prepFields_act, hg]
            rw [fixActivities_none _ (hY.trans hX), hY, hX]
          | some v =>
            obtain ⟨xs, hv, hobj⟩ := hact v hg
            subst hv
            have hX : getKey (prepFields m) "activities" =
                some (.arr xs) := by
              rw [getKey_prepFields_act, hg]
              dsimp only
              rw [List.filter_eq_self.2 hobj]
            rw [fixActivities_arr _ xs (hY.trans hX), hY, hX]
        · rw [fixFields, getKey_fixActivities_ne _ _ hk3,
            getKey_fixTimeField_ne "end_time" _ _ hk2,
            getKey_fixTimeField_ne "start_time" _ _ hk1,
            getKey_prepFields_other m k hk1 hk2 hk3]

/-- The prepared (serialized) form of a well-formed record is plain JSON:
the JSON encoder maps it to itself. -/
theorem pureJson_prepFields (m : List (String × JVal))
    (hnd : (m.map Prod.fst).Nodup)
    (hfield : ∀ p ∈ m, pureJson p.2 ∨
        ((p.1 = "start_time" ∨ p.1 = "end_time") ∧
          ∃ d, p.2 = .dt d ∧ d.boundsOK = true)) :
    pureJson (.obj (prepFields m)) := by
  have hpureAt : ∀ (k : String) (v : JVal), getKey m k = some v →
      (∀ d, v ≠ .dt d) → pureJson v := by
    intro k v hg hvd
    obtain ⟨p, hpm, hk, hv⟩ := getKey_mem m k v hg
    rcases hfield p hpm with hpure | ⟨_, d, hd, _⟩
    · rw [← hv]
      exact hpure
    · rw [hv] at hd
      exact absurd hd (hvd d)
  refine pureJson_obj_of_pointwise _ ?_
  intro q hq
  have hnd' : ((prepFields m).map Prod.fst).Nodup := by
    rw [keys_prepFields]
    exact hnd
  have hget : getKey (prepFields m) q.1 = some q.2 :=
    getKey_of_mem_nodup _ hnd' q hq
  by_cases hk1 : q.1 = "start_time"
  · rw [hk1, getKey_prepFields_start] at hget
    cases hg : getKey m "start_time" with
    | none => rw [hg] at hget; exact absurd hget (by simp)
    | some v =>
      rw [hg] at hget
      cases v with
      | dt d =>
        injection hget with hget
        rw [← hget]
        rfl
      | str s => injection hget with hget; rw [← hget]; rfl
      | num n => injection hget with hget; rw [← hget]; rfl
      | bool b => injection hget with hget; rw [← hget]; rfl
      | null => injection hget with hget; rw [← hget]; rfl
      | arr xs =>
        injection hget with hget
        rw [← hget]
        exact hpureAt _ _ hg (by simp)
      | obj mm =>
        injection hget with hget
        rw [← hget]
        exact hpureAt _ _ hg (by simp)
      | nonser =>
        injection hget with hget
        rw [← hget]
        exact hpureAt _ _ hg (by simp)
  · by_cases hk2 : q.1 = "end_time"
    · rw [hk2, getKey_prepFields_end] at hget
      cases hg : getKey m "end_time" with
      | none => rw [hg] at hget; exact absurd hget (by simp)
      | some v =>
        rw [hg] at hget
        cases v with
        | dt d =>
          injection hget with hget
          rw [← hget]
          rfl
        | str s => injection hget with hget; rw [← hget]; rfl
        | num n => injection hget with hget; rw [← hget]; rfl
        | bool b => injection hget with hget; rw [← hget]; rfl
        | null => injection hget with hget; rw [← hget]; rfl
        | arr xs =>
          injection hget with hget
          rw [← hget]
          exact hpureAt _ _ hg (by simp)
        | obj mm =>
          injection hget with hget
          rw [← hget]
          exact hpureAt _ _ hg (by simp)
        | nonser =>
          injection hget with hget
          rw [← hget]
          exact hpureAt _ _ hg (by simp)
    · by_cases hk3 : q.1 = "activities"
      · rw [hk3, getKey_prepFields_act] at hget
        cases hg : getKey m "activities" with
        | none => rw [hg] at hget; exact absurd hget (by simp)
        | some v =>
          rw [hg] at hget
          cases v with
          | arr xs =>
            injection hget with hget
            rw [← hget]
            refine pureJson_arr_of_pointwise _ ?_
            intro x hx
            have hpure : pureJson (.arr xs) := hpureAt _ _ hg (by simp)
            exact pureJson_arr_elems xs hpure x (List.mem_of_mem_filter hx)
          | str s => injection hget with hget; rw [← hget]; rfl
          | num n => injection hget with hget; rw [← hget]; rfl
          | bool b => injection hget with hget; rw [← hget]; rfl
          | null => injection hget with hget; rw [← hget]; rfl
          | dt d => injection hget with hget; rw [← hget]; rfl
          | obj mm => injection hget with hget; rw [← hget]; rfl
          | nonser => injection hget with hget; rw [← hget]; rfl
      · rw [getKey_prepFields_other m q.1 hk1 hk2 hk3] at hget
        refine hpureAt _ _ hget ?_
        intro d hd
        obtain ⟨p, hpm, hk, hv⟩ := getKey_mem m q.1 _ hget
        rcases hfield p hpm with hpure | ⟨ht, _⟩
        · rw [hv, hd] at hpure
          exact absurd hpure (pureJson_not_dt d)
        · rcases ht with h | h
          · rw [hk] at h
            exact hk1 h
          · rw [hk] at h
            exact hk2 h

/-- The full single-record round-trip: preparing a well-formed record for
saving, serializing it, and applying the load-time fixups returns the
original record. -/
theorem loadFix_dump_prep (now : DateTime) (rec : JVal) (hrec : recOK rec) :
    ∃ pm, prepJob rec = some pm ∧ dumpVal pm = some pm ∧
      loadFixJob now pm = rec := by
  obtain ⟨m, hm, hnd, hfield, hst, het, hact⟩ := hrec
  subst hm
  exact ⟨.obj (prepFields m), prepJob_obj m,
    pureJson_prepFields m hnd hfield,
    by rw [loadFixJob_obj, fixFields_prepFields m hnd hfield hst het hact]⟩

/-- C8 is false as stated: a record holding a datetime inside an
activity (as the program's own records do, via the activity `date`
field set in github_client.py line 294) does not round-trip.  The
encoder writes the nested datetime as its ISO string and
`_load_jobs_internal` converts only the top-level
`start_time`/`end_time` back (job_storage.py lines 102-117), so
`get_job` returns the string where the original had a datetime, while
the top-level `start_time` is restored. -/
theorem claim_C8_counterexample :
    getJob nowSample "j" (saveJob nowSample "j" recBadDate fsEmptyC8).2 =
      some (.obj [("status", .str "completed"),
        ("start_time", .dt ⟨2026, 10, 11, 8, 0, 0⟩),
        ("activities", .arr [.obj [("user", .str "a"),
          ("date", .str "2026-10-11T08:30:00")]])]) ∧
    getJob nowSample "j" (saveJob nowSample "j" recBadDate fsEmptyC8).2 ≠
      some recBadDate := by
  have hr : getJob nowSample "j"
      (saveJob nowSample "j" recBadDate fsEmptyC8).2 =
      some (.obj [("status", .str "completed"),
        ("start_time", .dt ⟨2026, 10, 11, 8, 0, 0⟩),
        ("activities", .arr [.obj [("user", .str "a"),
          ("date", .str "2026-10-11T08:30:00")]])]) := rfl
  refine ⟨hr, ?_⟩
  intro h
  have h2 := hr.symm.trans h
  rw [recBadDate] at h2
  injection h2 with h3
  simp at h3

/-- C8 (amended): `save_job` followed by `get_job` returns the record
equal in all fields when every field other than `start_time`/`end_time`
is plain JSON (no datetimes nested inside, e.g. in `activities`), the
time fields are in-bounds datetimes or strings the ISO parser rejects,
and `activities` is a list of dicts; the top-level datetimes survive the
ISO-string round-trip exactly at second precision.  Records carrying
datetimes nested in `activities` do not round-trip (see the
counterexample above). -/
theorem claim_C8_store_roundtrip (now now2 : DateTime) (id : String)
    (rec : JVal) (fs : FS) (hrec : recOK rec) (hwf : FS.wf fs) :
    getJob now2 id (saveJob now id rec fs).2 = some rec := by
  obtain ⟨pm, hprep, hdumppm, hfix⟩ := loadFix_dump_prep now2 rec hrec
  have hgid : getKey (setKey (loadJobsInternal now fs).1 id rec) id =
      some rec := getKey_setKey_self _ _ _
  have hallid : ∀ p ∈ setKey (loadJobsInternal now fs).1 id rec,
      p.1 = id → p.2 = rec := by
    intro p hp hk
    rcases mem_setKey_strong _ id rec p hp with ⟨_, hne⟩ | he
    · exact absurd hk hne
    · rw [he]
  have hpjobs :
      getKey (prepJobs (setKey (loadJobsInternal now fs).1 id rec)) id =
        some pm := by
    rw [getKey_prepJobs _ id rec hallid hgid, hprep]
  have hser : ∀ q ∈ prepJobs (setKey (loadJobsInternal now fs).1 id rec),
      (dumpVal q.2).isSome := by
    intro q hq
    obtain ⟨p, hp, hk, hpq⟩ := prepJobs_mem _ q hq
    rcases mem_setKey_strong _ id rec p hp with ⟨hin, _⟩ | he
    · exact prep_serializable p.2 q.2 (load_serializable now fs hwf p hin)
        hpq
    · rw [he] at hpq
      rw [hprep] at hpq
      injection hpq with hpq
      rw [← hpq, hdumppm]
      rfl
  obtain ⟨out, hout⟩ := dumpFields_exists_of_pointwise _ hser
  have hnonempty :
      (prepJobs (setKey (loadJobsInternal now fs).1 id rec)).isEmpty
        = false := by
    cases hpj : prepJobs (setKey (loadJobsInternal now fs).1 id rec) with
    | nil =>
      rw [hpj] at hpjobs
      exact absurd hpjobs (by simp [getKey_nil])
    | cons a l => rfl
  have hsaved : (saveJob now id rec fs).2.primary =
      some (.json (.obj out)) := by
    show (saveJobsInternal (setKey (loadJobsInternal now fs).1 id rec)
      (loadJobsInternal now fs).2).2.primary = some (.json (.obj out))
    rw [saveJobsInternal]
    rw [if_neg (by
      intro hcon
      rw [hnonempty] at hcon
      exact absurd hcon.1 (by simp))]
    rw [hout]
  rw [getJob]
  have hload : (loadJobsInternal now2 (saveJob now id rec fs).2).1 =
      out.map (fun p => (p.1, loadFixJob now2 p.2)) := by
    rw [loadJobsInternal, ensureJobsFile_of_some _ _ hsaved, hsaved]
  rw [hload, getKey_mapVal]
  have hkout : getKey out id = some pm := by
    rw [dumpFields_getKey _ out id hout, hpjobs]
    exact hdumppm
  rw [hkout]
  simp only [Option.map_some']
  rw [hfix]

theorem recSample_recOK : recOK recSample := by
  refine ⟨_, rfl, by decide, ?_, ?_, ?_, ?_⟩
  · intro p hp
    simp only [List.mem_cons, List.not_mem_nil, or_false] at hp
    rcases hp with rfl | rfl | rfl | rfl | rfl
    · exact Or.inl rfl
    · exact Or.inr ⟨Or.inl rfl, _, rfl, by decide⟩
    · exact Or.inr ⟨Or.inr rfl, _, rfl, by decide⟩
    · exact Or.inl rfl
    · exact Or.inl rfl
  · intro s hs
    injection hs with hs
    exact JVal.noConfusion hs
  · intro s hs
    injection hs with hs
    exact JVal.noConfusion hs
  · intro v hv
    injection hv with hv
    exact ⟨[.obj [("user", .str "a")]], hv.symm, by decide⟩

/-- Witness for C8 at a concrete record and an initially empty store. -/
theorem claim_C8_store_roundtrip_witness :
    getJob nowSample "j1"
      (saveJob nowSample "j1" recSample
        ⟨some (.json (.obj [])), none⟩).2 = some recSample :=
  claim_C8_store_roundtrip nowSample nowSample "j1" recSample
    ⟨some (.json (.obj [])), none⟩ recSample_recOK
    (by
      intro v hv
      injection hv with hv
      injection hv with hv
      rw [← hv]
      rfl)

theorem fromisoformat_empty : fromisoformat "" = none := rfl

theorem truthy_str_false (s : String) (h : truthy (.str s) = false) :
    s = "" := by
  simp only [truthy, ne_eq, decide_not] at h
  simpa using h

/-- The `clean_old_jobs` decision depends only on the `timeSim` classes
of the two time fields. -/
theorem shouldRemove_of_timeSim (cutoff : DateTime)
    (mm mm' : List (String × JVal))
    (hend : timeSim (getKey mm' "end_time") (getKey mm "end_time"))
    (hstart : timeSim (getKey mm' "start_time") (getKey mm "start_time")) :
    shouldRemove cutoff (.obj mm') = shouldRemove cutoff (.obj mm) := by
  have hsel : ∀ (a b : Option JVal), timeSim a b →
      (match a with
       | some (.dt d) => DateTime.lt d cutoff
       | _ => false) =
      (match b with
       | some (.dt d) => DateTime.lt d cutoff
       | _ => false) := by
    intro a b hab
    cases a with
    | none =>
      cases b with
      | none => rfl
      | some y => exact absurd hab (by simp [timeSim])
    | some x =>
      cases b with
      | none => exact absurd hab (by simp [timeSim])
      | some y =>
        obtain ⟨htr, hdt⟩ := hab
        rcases hdt with ⟨d, hx, hy⟩ | ⟨hx, hy⟩
        · rw [hx, hy]
        · cases x with
          | dt d => exact absurd rfl (hx d)
          | str s =>
            cases y with
            | dt d => exact absurd rfl (hy d)
            | str t => rfl
            | num n => rfl
            | bool b => rfl
            | null => rfl
            | arr xs => rfl
            | obj m => rfl
            | nonser => rfl
          | num n =>
            cases y with
            | dt d => exact absurd rfl (hy d)
            | str t => rfl
            | num n2 => rfl
            | bool b => rfl
            | null => rfl
            | arr xs => rfl
            | obj m => rfl
            | nonser => rfl
          | bool b =>
            cases y with
            | dt d => exact absurd rfl (hy d)
            | str t => rfl
            | num n => rfl
            | bool b2 => rfl
            | null => rfl
            | arr xs => rfl
            | obj m => rfl
            | nonser => rfl
          | null =>
            cases y with
            | dt d => exact absurd rfl (hy d)
            | str t => rfl
            | num n => rfl
            | bool b => rfl
            | null => rfl
            | arr xs => rfl
            | obj m => rfl
            | nonser => rfl
          | arr xs =>
            cases y with
            | dt d => exact absurd rfl (hy d)
            | str t => rfl
            | num n => rfl
            | bool b => rfl
            | null => rfl
            | arr xs2 => rfl
            | obj m => rfl
            | nonser => rfl
          | obj m =>
            cases y with
            | dt d => exact absurd rfl (hy d)
            | str t => rfl
            | num n => rfl
            | bool b => rfl
            | null => rfl
            | arr xs => rfl
            | obj m2 => rfl
            | nonser => rfl
          | nonser =>
            cases y with
            | dt d => exact absurd rfl (hy d)
            | str t => rfl
            | num n => rfl
            | bool b => rfl
            | null => rfl
            | arr xs => rfl
            | obj m => rfl
            | nonser => rfl
  rw [shouldRemove, shouldRemove, jobTime, jobTime]
  cases he' : getKey mm' "end_time" with
  | none =>
    cases he : getKey mm "end_time" with
    | some y =>
      rw [he', he] at hend
      exact absurd hend (by simp [timeSim])
    | none =>
      dsimp only
      cases hs' : getKey mm' "start_time" with
      | none =>
        cases hs : getKey mm "start_time" with
        | some y =>
          rw [hs', hs] at hstart
          exact absurd hstart (by simp [timeSim])
        | none => rfl
      | some x =>
        cases hs : getKey mm "start_time" with
        | none =>
          rw [hs', hs] at hstart
          exact absurd hstart (by simp [timeSim])
        | some y =>
          rw [hs', hs] at hstart
          dsimp only
          rw [hstart.1]
          by_cases ht : truthy y = true
          · rw [if_pos ht, if_pos ht]
            exact hsel (some x) (some y) hstart
          · rw [if_neg ht, if_neg ht]
  | some x =>
    cases he : getKey mm "end_time" with
    | none =>
      rw [he', he] at hend
      exact absurd hend (by simp [timeSim])
    | some y =>
      rw [he', he] at hend
      dsimp only
      rw [hend.1]
      by_cases ht : truthy y = true
      · rw [if_pos ht, if_pos ht]
        exact hsel (some x) (some y) hend
      · rw [if_neg ht, if_neg ht]
        cases hs' : getKey mm' "start_time" with
        | none =>
          cases hs : getKey mm "start_time" with
          | some z =>
            rw [hs', hs] at hstart
            exact absurd hstart (by simp [timeSim])
          | none => rfl
        | some z =>
          cases hs : getKey mm "start_time" with
          | none =>
            rw [hs', hs] at hstart
            exact absurd hstart (by simp [timeSim])
          | some u =>
            rw [hs', hs] at hstart
            dsimp only
            rw [hstart.1]
            by_cases ht2 : truthy u = true
            · rw [if_pos ht2, if_pos ht2]
              exact hsel (some z) (some u) hstart
            · rw [if_neg ht2, if_neg ht2]

theorem timeSim_fixTimeField (k0 : String) (L : List (String × JVal))
    (mm w2 : List (String × JVal))
    (hd : dumpFields (prepFields mm) = some w2)
    (hOK : timeOK (getKey mm k0))
    (hpf : getKey (prepFields mm) k0 =
      (match getKey mm k0 with
       | some (.dt d) => some (.str (isoformat d))
       | o => o))
    (hL : getKey L k0 = getKey w2 k0) :
    timeSim (getKey (fixTimeField k0 L) k0) (getKey mm k0) := by
  have hw : getKey w2 k0 =
      (match getKey (prepFields mm) k0 with
       | none => none
       | some v => dumpVal v) := dumpFields_getKey _ w2 k0 hd
  have hother : ∀ v : JVal, getKey mm k0 = some v → (∀ t, v ≠ .str t) →
      (∀ d, v ≠ .dt d) →
      timeSim (getKey (fixTimeField k0 L) k0) (getKey mm k0) := by
    intro v hg hvs hvd
    have hv : getKey (prepFields mm) k0 = some v := by
      rw [hpf, hg]
      cases v with
      | dt d => exact absurd rfl (hvd d)
      | str t => rfl
      | num n => rfl
      | bool b => rfl
      | null => rfl
      | arr xs => rfl
      | obj m2 => rfl
      | nonser => rfl
    obtain ⟨p, hpm, hk, hval⟩ := getKey_mem _ _ _ hv
    have hsome := dumpFields_forall_isSome _ w2 hd p hpm
    rw [hval] at hsome
    obtain ⟨w0, hw0⟩ := Option.isSome_iff_exists.1 hsome
    have hL0 : getKey L k0 = some w0 := by
      rw [hL, hw, hv]
      exact hw0
    have hnstr : ∀ t, w0 ≠ .str t := fun t => dump_not_str v w0 hw0 hvs hvd t
    rw [fixTimeField_keep_other k0 L w0 hL0 hnstr, hL0, hg]
    exact ⟨dump_truthy v w0 hw0,
      Or.inr ⟨fun d => dump_not_dt v w0 hw0 d, fun d hdd => hvd d hdd⟩⟩
  cases hg : getKey mm k0 with
  | none =>
    rw [hg] at hpf
    have hL0 : getKey L k0 = none := by
      rw [hL, hw, hpf]
    rw [fixTimeField_none k0 L hL0, hL0]
    exact trivial
  | some v =>
    cases v with
    | dt d =>
      rw [hg] at hpf
      have hbd : d.boundsOK = true := by
        rw [hg] at hOK
        exact hOK
      have hL0 : getKey L k0 = some (.str (isoformat d)) := by
        rw [hL, hw, hpf]
        rfl
      rw [fixTimeField_parse k0 L _ d hL0 (isoformat_ne_empty d)
        (fromisoformat_isoformat d hbd), getKey_setKey_self]
      exact ⟨rfl, Or.inl ⟨d, rfl, rfl⟩⟩
    | str s =>
      rw [hg] at hpf
      have hps : fromisoformat s = none := by
        rw [hg] at hOK
        exact hOK
      have hL0 : getKey L k0 = some (.str s) := by
        rw [hL, hw, hpf]
        rfl
      rw [fixTimeField_keep_str k0 L s hL0 hps, hL0]
      exact ⟨rfl, Or.inr ⟨by simp, by simp⟩⟩
    | num n => exact hg ▸ hother _ hg (by simp) (by simp)
    | bool b => exact hg ▸ hother _ hg (by simp) (by simp)
    | null => exact hg ▸ hother _ hg (by simp) (by simp)
    | arr xs => exact hg ▸ hother _ hg (by simp) (by simp)
    | obj m2 => exact hg ▸ hother _ hg (by simp) (by simp)
    | nonser => exact hg ▸ hother _ hg (by simp) (by simp)

theorem timeOK_fixTimeField (k0 : String) (L : List (String × JVal))
    (hnodt : ∀ d, getKey L k0 ≠ some (.dt d)) :
    timeOK (getKey (fixTimeField k0 L) k0) := by
  cases hg : getKey L k0 with
  | none =>
    rw [fixTimeField_none k0 L hg, hg]
    exact trivial
  | some v =>
    cases v with
    | str s =>
      by_cases hts : s = ""
      · subst hts
        rw [fixTimeField_keep_str k0 L "" hg fromisoformat_empty, hg]
        exact fromisoformat_empty
      · cases hp : fromisoformat s with
        | some d =>
          rw [fixTimeField_parse k0 L s d hg hts hp, getKey_setKey_self]
          exact fromisoformat_boundsOK s d hp
        | none =>
          rw [fixTimeField_keep_str k0 L s hg hp, hg]
          exact hp
    | dt d => exact absurd hg (hnodt d)
    | num n =>
      rw [fixTimeField_keep_other k0 L _ hg (by simp), hg]
      exact trivial
    | bool b =>
      rw [fixTimeField_keep_other k0 L _ hg (by simp), hg]
      exact trivial
    | null =>
      rw [fixTimeField_keep_other k0 L _ hg (by simp), hg]
      exact trivial
    | arr xs =>
      rw [fixTimeField_keep_other k0 L _ hg (by simp), hg]
      exact trivial
    | obj m2 =>
      rw [fixTimeField_keep_other k0 L _ hg (by simp), hg]
      exact trivial
    | nonser =>
      rw [fixTimeField_keep_other k0 L _ hg (by simp), hg]
      exact trivial

/-- The cleanup decision is unchanged by a save-then-load cycle on a
record in loaded form. -/
theorem shouldRemove_stable (now cutoff : DateTime)
    (mm w2 : List (String × JVal))
    (hd : dumpFields (prepFields mm) = some w2)
    (hs : timeOK (getKey mm "start_time"))
    (he : timeOK (getKey mm "end_time")) :
    shouldRemove cutoff (loadFixJob now (.obj w2)) =
      shouldRemove cutoff (.obj mm) := by
  rw [loadFixJob_obj]
  apply shouldRemove_of_timeSim
  · have hk : getKey (fixFields w2) "end_time" =
        getKey (fixTimeField "end_time" (fixTimeField "start_time" w2))
          "end_time" := by
      rw [fixFields, getKey_fixActivities_ne _ _ (by decide)]
    rw [hk]
    exact timeSim_fixTimeField "end_time" _ mm w2 hd he
      (getKey_prepFields_end mm)
      (getKey_fixTimeField_ne "start_time" _ _ (by decide))
  · have hk : getKey (fixFields w2) "start_time" =
        getKey (fixTimeField "start_time" w2) "start_time" := by
      rw [fixFields, getKey_fixActivities_ne _ _ (by decide),
        getKey_fixTimeField_ne "end_time" _ _ (by decide)]
    rw [hk]
    exact timeSim_fixTimeField "start_time" w2 mm w2 hd hs
      (getKey_prepFields_start mm) rfl

/-- Every job returned by `_load_jobs_internal` is a dict whose
`start_time`/`end_time` are either in-bounds datetimes or values that
the ISO parser rejects (so later load cycles keep them stable). -/
theorem load_timeOK (now : DateTime) (fs : FS) (hwf : FS.wf fs)
    (hnow : now.boundsOK = true) :
    ∀ p ∈ (loadJobsInternal now fs).1,
      ∃ mm, p.2 = .obj mm ∧ timeOK (getKey mm "start_time") ∧
        timeOK (getKey mm "end_time") := by
  intro q hq
  rw [loadJobsInternal] at hq
  cases hp : fs.primary with
  | none =>
    rw [ensureJobsFile, hp] at hq
    simp at hq
  | some c =>
    rw [ensureJobsFile_of_some fs c hp, hp] at hq
    cases c with
    | unreadable => simp at hq
    | invalid s => simp at hq
    | json v =>
      cases v with
      | obj m0 =>
        dsimp only at hq
        rcases List.mem_map.1 hq with ⟨p, hpm, he⟩
        have hpure : pureJson p.2 := pureJson_fields m0 (hwf _ hp) p hpm
        rw [← he]
        dsimp only
        cases hval : p.2 with
        | obj mm =>
          rw [hval] at hpure
          have hnodt1 : ∀ d, getKey mm "start_time" ≠ some (.dt d) := by
            intro d hgd
            exact absurd (pureJson_getKey mm _ _ hpure hgd)
              (pureJson_not_dt d)
          have hnodt2 : ∀ d,
              getKey (fixTimeField "start_time" mm) "end_time" ≠
                some (.dt d) := by
            intro d hgd
            rw [getKey_fixTimeField_ne "start_time" _ _ (by decide)] at hgd
            exact absurd (pureJson_getKey mm _ _ hpure hgd)
              (pureJson_not_dt d)
          refine ⟨_, loadFixJob_obj now mm, ?_, ?_⟩
          · rw [fixFields, getKey_fixActivities_ne _ _ (by decide),
              getKey_fixTimeField_ne "end_time" _ _ (by decide)]
            exact timeOK_fixTimeField "start_time" mm hnodt1
          · rw [fixFields, getKey_fixActivities_ne _ _ (by decide)]
            exact timeOK_fixTimeField "end_time" _ hnodt2
        | str s => exact ⟨_, rfl, hnow, hnow⟩
        | num n => exact ⟨_, rfl, hnow, hnow⟩
        | bool b => exact ⟨_, rfl, hnow, hnow⟩
        | null => exact ⟨_, rfl, hnow, hnow⟩
        | dt d => exact ⟨_, rfl, hnow, hnow⟩
        | arr xs => exact ⟨_, rfl, hnow, hnow⟩
        | nonser => exact ⟨_, rfl, hnow, hnow⟩
      | str s => simp at hq
      | num n => simp at hq
      | bool b => simp at hq
      | null => simp at hq
      | dt d => simp at hq
      | arr xs => simp at hq
      | nonser => simp at hq

theorem removeIds_fst_aux (ids : List String) :
    ∀ (js : List (String × JVal)) (c : Nat),
    (ids.foldl
      (fun acc i =>
        if acc.1.any (fun p => p.1 = i) then
          (acc.1.filter (fun p => ¬ p.1 = i), acc.2 + 1)
        else acc)
      (js, c)).1 = (removeIds js ids).1 := by
  induction ids with
  | nil => intro js c; rfl
  | cons i rest ih =>
    intro js c
    rw [List.foldl_cons, removeIds, List.foldl_cons]
    dsimp only
    by_cases ha : js.any (fun p => p.1 = i) = true
    · rw [if_pos ha, if_pos ha, ih, ih]
    · rw [if_neg ha, if_neg ha, ih, ih]

theorem removeIds_count_le (ids : List String) :
    ∀ (js : List (String × JVal)) (c : Nat),
    c ≤ (ids.foldl
      (fun acc i =>
        if acc.1.any (fun p => p.1 = i) then
          (acc.1.filter (fun p => ¬ p.1 = i), acc.2 + 1)
        else acc)
      (js, c)).2 := by
  induction ids with
  | nil => intro js c; exact le_refl c
  | cons i rest ih =>
    intro js c
    rw [List.foldl_cons]
    dsimp only
    by_cases ha : js.any (fun p => p.1 = i) = true
    · rw [if_pos ha]
      exact le_trans (Nat.le_succ c) (ih _ (c + 1))
    · rw [if_neg ha]
      exact ih _ c

theorem removeIds_mem (ids : List String) :
    ∀ (jobs : List (String × JVal)) (p : String × JVal),
    p ∈ (removeIds jobs ids).1 → p ∈ jobs ∧ p.1 ∉ ids := by
  induction ids with
  | nil => intro jobs p hp; exact ⟨hp, by simp⟩
  | cons i rest ih =>
    intro jobs p hp
    rw [removeIds, List.foldl_cons] at hp
    dsimp only at hp
    by_cases ha : jobs.any (fun q => q.1 = i) = true
    · rw [if_pos ha, removeIds_fst_aux rest] at hp
      obtain ⟨hmem, hni⟩ := ih _ p hp
      have hpj : p ∈ jobs := (List.mem_filter.1 hmem).1
      have hpi : ¬ p.1 = i := by
        have := (List.mem_filter.1 hmem).2
        simpa using this
      refine ⟨hpj, ?_⟩
      intro h2
      rcases List.mem_cons.1 h2 with h | h
      · exact hpi h
      · exact hni h
    · rw [if_neg ha, removeIds_fst_aux rest] at hp
      obtain ⟨hmem, hni⟩ := ih _ p hp
      refine ⟨hmem, ?_⟩
      intro h2
      rcases List.mem_cons.1 h2 with h | h
      · exact absurd (List.any_eq_true.2 ⟨p, hmem, by simp [h]⟩) ha
      · exact hni h

theorem removeIds_pos_of_head (jobs : List (String × JVal)) (i : String)
    (rest : List String) (ha : jobs.any (fun p => p.1 = i) = true) :
    0 < (removeIds jobs (i :: rest)).2 := by
  rw [removeIds, List.foldl_cons]
  dsimp only
  rw [if_pos ha]
  exact lt_of_lt_of_le (Nat.succ_pos 0) (removeIds_count_le rest _ 1)

theorem cleanTargets_nil (cutoff : DateTime) (jobs : List (String × JVal))
    (h : ∀ p ∈ jobs, shouldRemove cutoff p.2 = false) :
    cleanTargets cutoff jobs = [] := by
  rw [cleanTargets]
  have hf : jobs.filter (fun p => shouldRemove cutoff p.2) = [] := by
    rw [List.filter_eq_nil_iff]
    intro p hp
    simp [h p hp]
  rw [hf]
  rfl

theorem allfalse_of_count_zero (cutoff : DateTime)
    (jobs : List (String × JVal))
    (h : (removeIds jobs (cleanTargets cutoff jobs)).2 = 0) :
    ∀ p ∈ jobs, shouldRemove cutoff p.2 = false := by
  cases ht : cleanTargets cutoff jobs with
  | nil =>
    have hf : jobs.filter (fun p => shouldRemove cutoff p.2) = [] := by
      have h2 := ht
      rw [cleanTargets] at h2
      exact List.map_eq_nil_iff.1 h2
    intro p hp
    by_contra hc
    have hc2 : shouldRemove cutoff p.2 = true := by
      cases hbool : shouldRemove cutoff p.2
      · exact absurd hbool hc
      · rfl
    have hm : p ∈ jobs.filter (fun p => shouldRemove cutoff p.2) :=
      List.mem_filter.2 ⟨hp, hc2⟩
    rw [hf] at hm
    exact absurd hm (List.not_mem_nil p)
  | cons i rest =>
    have hi : i ∈ cleanTargets cutoff jobs := by
      rw [ht]
      exact List.mem_cons_self i rest
    rw [cleanTargets] at hi
    rcases List.mem_map.1 hi with ⟨p, hpf, hpe⟩
    have hpj : p ∈ jobs := (List.mem_filter.1 hpf).1
    have ha : jobs.any (fun q => q.1 = i) = true :=
      List.any_eq_true.2 ⟨p, hpj, by simp [hpe]⟩
    have hpos := removeIds_pos_of_head jobs i rest ha
    rw [← ht] at hpos
    omega

theorem cleanOldJobs_eq (now cutoff : DateTime) (fs : FS) :
    cleanOldJobs now cutoff fs =
      (if 0 < (removeIds (loadJobsInternal now fs).1
            (cleanTargets cutoff (loadJobsInternal now fs).1)).2 then
        ((removeIds (loadJobsInternal now fs).1
            (cleanTargets cutoff (loadJobsInternal now fs).1)).2,
          (saveJobsInternal (removeIds (loadJobsInternal now fs).1
              (cleanTargets cutoff (loadJobsInternal now fs).1)).1
            (loadJobsInternal now fs).2).2)
      else ((removeIds (loadJobsInternal now fs).1
            (cleanTargets cutoff (loadJobsInternal now fs).1)).2,
        (loadJobsInternal now fs).2)) := rfl

theorem cleanOldJobs_zero_of_allfalse (now cutoff : DateTime) (fs : FS)
    (h : ∀ p ∈ (loadJobsInternal now fs).1,
      shouldRemove cutoff p.2 = false) :
    cleanOldJobs now cutoff fs = (0, (loadJobsInternal now fs).2) := by
  rw [cleanOldJobs_eq, cleanTargets_nil cutoff _ h]
  rfl

theorem load_empty_obj (now : DateTime) (fs : FS)
    (hp : fs.primary = some (.json (.obj []))) :
    (loadJobsInternal now fs).1 = [] := by
  rw [loadJobsInternal, ensureJobsFile_of_some fs _ hp, hp]
  rfl

/-- Reloading the file state produced by a load returns the same
collection (the reset-to-empty branches produce an empty object, the
others leave the primary file as it was). -/
theorem load_of_load_snd (now : DateTime) (fs : FS) :
    (loadJobsInternal now (loadJobsInternal now fs).2).1 =
      (loadJobsInternal now fs).1 := by
  cases hp : fs.primary with
  | none =>
    have hload : loadJobsInternal now fs =
        ([], { fs with primary := some (.json (.obj [])) }) := by
      rw [loadJobsInternal, ensureJobsFile, hp]
      rfl
    rw [hload]
    dsimp only
    exact load_empty_obj now _ rfl
  | some c =>
    cases c with
    | unreadable =>
      have hsnd : (loadJobsInternal now fs).2 = fs := by
        rw [loadJobsInternal, ensureJobsFile_of_some fs _ hp, hp]
      rw [hsnd]
    | invalid s =>
      have hload : loadJobsInternal now fs =
          ([], { fs with backup := some (.invalid s), primary := some (.json (.obj [])) }) := by
        rw [loadJobsInternal, ensureJobsFile_of_some fs _ hp, hp]
      rw [hload]
      dsimp only
      exact load_empty_obj now _ rfl
    | json v =>
      have hnonobj : (∀ m0, v ≠ .obj m0) →
          (loadJobsInternal now (loadJobsInternal now fs).2).1 =
            (loadJobsInternal now fs).1 := by
        intro hv
        have hload : loadJobsInternal now fs =
            ([], { fs with primary := some (.json (.obj [])) }) := by
          rw [loadJobsInternal, ensureJobsFile_of_some fs _ hp, hp]
          cases v with
          | obj m0 => exact absurd rfl (hv m0)
          | str s => rfl
          | num n => rfl
          | bool b => rfl
          | null => rfl
          | dt d => rfl
          | arr xs => rfl
          | nonser => rfl
        rw [hload]
        dsimp only
        exact load_empty_obj now _ rfl
      cases v with
      | obj m0 =>
        have hsnd : (loadJobsInternal now fs).2 = fs := by
          rw [loadJobsInternal, ensureJobsFile_of_some fs _ hp, hp]
        rw [hsnd]
      | str s => exact hnonobj (by simp)
      | num n => exact hnonobj (by simp)
      | bool b => exact hnonobj (by simp)
      | null => exact hnonobj (by simp)
      | dt d => exact hnonobj (by simp)
      | arr xs => exact hnonobj (by simp)
      | nonser => exact hnonobj (by simp)

theorem prepJobs_isEmpty (S : List (String × JVal))
    (h : ∀ q ∈ S, ∃ mm, q.2 = .obj mm) :
    (prepJobs S).isEmpty = S.isEmpty := by
  cases S with
  | nil => rfl
  | cons q t =>
    obtain ⟨mm, hmm⟩ := h q (List.mem_cons_self q t)
    rw [prepJobs, List.filterMap_cons, hmm, prepJob_obj]
    rfl

theorem saveJobsInternal_success (S : List (String × JVal)) (fs : FS)
    (out : List (String × JVal))
    (hcond : ¬ ((prepJobs S).isEmpty = true ∧ ¬ S.isEmpty = true))
    (hd : dumpFields (prepJobs S) = some out) :
    saveJobsInternal S fs =
      (true, { ensureJobsFile fs with
        primary := some (.json (.obj out)) }) := by
  simp only [saveJobsInternal]
  rw [if_neg hcond, hd]

theorem load_fst_nil_unless_obj (now : DateTime) (fs : FS)
    (hno : ∀ m0, fs.primary ≠ some (.json (.obj m0))) :
    (loadJobsInternal now fs).1 = [] := by
  cases hp : fs.primary with
  | none =>
    rw [loadJobsInternal, ensureJobsFile, hp]
    rfl
  | some c =>
    cases c with
    | unreadable =>
      rw [loadJobsInternal, ensureJobsFile_of_some fs _ hp, hp]
    | invalid s =>
      rw [loadJobsInternal, ensureJobsFile_of_some fs _ hp, hp]
    | json v =>
      cases v with
      | obj m0 => exact absurd hp (hno m0)
      | str s => rw [loadJobsInternal, ensureJobsFile_of_some fs _ hp, hp]
      | num n => rw [loadJobsInternal, ensureJobsFile_of_some fs _ hp, hp]
      | bool b => rw [loadJobsInternal, ensureJobsFile_of_some fs _ hp, hp]
      | null => rw [loadJobsInternal, ensureJobsFile_of_some fs _ hp, hp]
      | dt d => rw [loadJobsInternal, ensureJobsFile_of_some fs _ hp, hp]
      | arr xs => rw [loadJobsInternal, ensureJobsFile_of_some fs _ hp, hp]
      | nonser => rw [loadJobsInternal, ensureJobsFile_of_some fs _ hp, hp]

/-- C9: `clean_old_jobs` is idempotent: calling it twice in succession
with no jobs added in between removes the qualifying jobs only on the
first call and returns 0 on the second call (for any well-formed
storage state and any in-bounds current time). -/
theorem claim_C9_idempotent_cleanup (now cutoff : DateTime) (fs : FS)
    (hwf : FS.wf fs) (hnow : now.boundsOK = true) :
    (cleanOldJobs now cutoff (cleanOldJobs now cutoff fs).2).1 = 0 := by
  by_cases hz : (removeIds (loadJobsInternal now fs).1
      (cleanTargets cutoff (loadJobsInternal now fs).1)).2 = 0
  · have hall := allfalse_of_count_zero cutoff _ hz
    have hfirst : (cleanOldJobs now cutoff fs).2 =
        (loadJobsInternal now fs).2 := by
      rw [cleanOldJobs_eq, if_neg (by omega)]
    rw [hfirst]
    have hall2 : ∀ p ∈ (loadJobsInternal now
        (loadJobsInternal now fs).2).1,
        shouldRemove cutoff p.2 = false := by
      rw [load_of_load_snd]
      exact hall
    rw [cleanOldJobs_zero_of_allfalse now cutoff _ hall2]
  · obtain ⟨m0, hp⟩ : ∃ m0, fs.primary = some (.json (.obj m0)) := by
      by_contra hno
      push_neg at hno
      rw [load_fst_nil_unless_obj now fs hno] at hz
      exact hz rfl
    have hsnd : (loadJobsInternal now fs).2 = fs := by
      rw [loadJobsInternal, ensureJobsFile_of_some fs _ hp, hp]
    have hobj := load_timeOK now fs hwf hnow
    have hser := load_serializable now fs hwf
    have hSmem : ∀ q ∈ (removeIds (loadJobsInternal now fs).1
        (cleanTargets cutoff (loadJobsInternal now fs).1)).1,
        q ∈ (loadJobsInternal now fs).1 ∧
          shouldRemove cutoff q.2 = false := by
      intro q hq
      obtain ⟨hmem, hni⟩ := removeIds_mem _ _ q hq
      refine ⟨hmem, ?_⟩
      cases hb : shouldRemove cutoff q.2 with
      | false => rfl
      | true =>
        refine absurd ?_ hni
        rw [cleanTargets]
        exact List.mem_map_of_mem Prod.fst (List.mem_filter.2 ⟨hmem, hb⟩)
    have hobjS : ∀ q ∈ (removeIds (loadJobsInternal now fs).1
        (cleanTargets cutoff (loadJobsInternal now fs).1)).1,
        ∃ mm, q.2 = .obj mm := by
      intro q hq
      obtain ⟨mm, hmm, _, _⟩ := hobj q (hSmem q hq).1
      exact ⟨mm, hmm⟩
    have hcond : ¬ ((prepJobs (removeIds (loadJobsInternal now fs).1
        (cleanTargets cutoff (loadJobsInternal now fs).1)).1).isEmpty =
          true ∧
        ¬ ((removeIds (loadJobsInternal now fs).1
          (cleanTargets cutoff
            (loadJobsInternal now fs).1)).1).isEmpty = true) := by
      rw [prepJobs_isEmpty _ hobjS]
      exact fun h => h.2 h.1
    have hserS : ∀ pp ∈ prepJobs (removeIds (loadJobsInternal now fs).1
        (cleanTargets cutoff (loadJobsInternal now fs).1)).1,
        (dumpVal pp.2).isSome := by
      intro pp hpp
      obtain ⟨q0, hq0, _, hprep⟩ := prepJobs_mem _ pp hpp
      exact prep_serializable q0.2 pp.2 (hser q0 (hSmem q0 hq0).1) hprep
    obtain ⟨out, hout⟩ := dumpFields_exists_of_pointwise _ hserS
    have hsave := saveJobsInternal_success _ fs out hcond hout
    have hfirst : (cleanOldJobs now cutoff fs).2 =
        { ensureJobsFile fs with
          primary := some (.json (.obj out)) } := by
      rw [cleanOldJobs_eq, if_pos (Nat.pos_of_ne_zero hz)]
      dsimp only
      rw [hsnd, hsave]
    rw [hfirst]
    have hp2 : ({ ensureJobsFile fs with
        primary := some (.json (.obj out)) } : FS).primary =
        some (.json (.obj out)) := rfl
    have hload2 : (loadJobsInternal now { ensureJobsFile fs with
        primary := some (.json (.obj out)) }).1 =
        out.map (fun p => (p.1, loadFixJob now p.2)) := by
      rw [loadJobsInternal, ensureJobsFile_of_some _ _ hp2, hp2]
    have hall2 : ∀ q ∈ (loadJobsInternal now { ensureJobsFile fs with
        primary := some (.json (.obj out)) }).1,
        shouldRemove cutoff q.2 = false := by
      intro q hq
      rw [hload2] at hq
      rcases List.mem_map.1 hq with ⟨pw, hpw, he⟩
      obtain ⟨pp, hpp, hk1, hdv⟩ := dumpFields_mem _ out pw hout hpw
      obtain ⟨q0, hq0, hk2, hprep⟩ := prepJobs_mem _ pp hpp
      obtain ⟨mm, hmm, hts, hte⟩ := hobj q0 (hSmem q0 hq0).1
      have hsr0 : shouldRemove cutoff q0.2 = false := (hSmem q0 hq0).2
      rw [hmm, prepJob_obj] at hprep
      injection hprep with hprep
      rw [← hprep] at hdv
      have hdv2 : (match dumpFields (prepFields mm) with
          | some w2 => some (JVal.obj w2)
          | none => none) = some pw.2 := hdv
      cases hdf : dumpFields (prepFields mm) with
      | none =>
        rw [hdf] at hdv2
        exact absurd hdv2 (by simp)
      | some w2 =>
        rw [hdf] at hdv2
        injection hdv2 with hdv3
        have hq2 : q.2 = loadFixJob now pw.2 := by rw [← he]
        rw [hq2, ← hdv3,
          shouldRemove_stable now cutoff mm w2 hdf hts hte, ← hmm]
        exact hsr0
    rw [cleanOldJobs_zero_of_allfalse now cutoff _ hall2]

theorem claim_C9_idempotent_cleanup_witness :
    FS.wf fs9 ∧ nowSample.boundsOK = true ∧
      (cleanOldJobs nowSample cutoffSample fs9).1 = 1 ∧
      (cleanOldJobs nowSample cutoffSample
        (cleanOldJobs nowSample cutoffSample fs9).2).1 = 0 := by
  have hwf9 : FS.wf fs9 := by
    intro v hv
    injection hv with hv
    injection hv with hv
    rw [← hv]
    rfl
  exact ⟨hwf9, rfl, rfl,
    claim_C9_idempotent_cleanup nowSample cutoffSample fs9 hwf9 rfl⟩

end GAT
